import Mathlib

/-!
Shallow embedding of rest_framework_docs/api_endpoint.py.

The module introspects a Django REST framework routing table and serializer
metadata.  Python values flowing through the code (docstrings, field
metadata, choice mappings, lazily translated strings) are modelled by the
inductive type PyVal below; framework objects (viewset classes, routers,
routes, serializers) are modelled by structures holding exactly the
attributes the source reads.  Machinery the source calls in external
libraries (str.upper, sorted, str.format, json.dumps / json.loads,
dict construction) is modelled by executable Lean functions that follow the
documented behaviour of those library functions.
-/

namespace RestFrameworkDocs

/-- Model of the Python values the module manipulates.  A lazily translated
string (django.utils.functional.Promise) evaluating to s is modelled by
promise s; django's force_text realises it to str s. -/
inductive PyVal where
  | str (s : String)
  | promise (s : String)
  | bool (b : Bool)
  | int (n : Int)
  | none
  | list (xs : List PyVal)
  | dict (entries : List (PyVal × PyVal))

/-- Python str.upper for the ASCII method names the module uppercases. -/
def pyUpper (s : String) : String := ⟨s.data.map Char.toUpper⟩

/-- Lexicographic comparison of code-point sequences, the order Python uses
to compare strings. -/
def lexLeB : List Char → List Char → Bool
  | [], _ => true
  | _ :: _, [] => false
  | a :: as, b :: bs =>
    if a.toNat < b.toNat then true
    else if b.toNat < a.toNat then false
    else lexLeB as bs

/-- Python string comparison a <= b (code-point lexicographic). -/
def strLeB (a b : String) : Bool := lexLeB a.data b.data

/-- Propositional form of strLeB, used as the sorting relation. -/
def strLe (a b : String) : Prop := strLeB a b = true

instance : DecidableRel strLe := fun _ _ => inferInstanceAs (Decidable (_ = true))

theorem lexLeB_total (a b : List Char) : lexLeB a b = true ∨ lexLeB b a = true := by
  induction a generalizing b with
  | nil => exact Or.inl rfl
  | cons x xs ih =>
    cases b with
    | nil => exact Or.inr rfl
    | cons y ys =>
      rcases Nat.lt_trichotomy x.toNat y.toNat with h | h | h
      · exact Or.inl (by simp [lexLeB, h])
      · rcases ih ys with h2 | h2
        · exact Or.inl (by simp [lexLeB, h, h2])
        · exact Or.inr (by simp [lexLeB, h, h2])
      · exact Or.inr (by simp [lexLeB, h])

theorem lexLeB_head {x y : Char} {xs ys : List Char}
    (h : lexLeB (x :: xs) (y :: ys) = true) : x.toNat ≤ y.toNat := by
  simp only [lexLeB] at h
  split at h
  · omega
  · split at h
    · simp at h
    · omega

theorem lexLeB_tail {x y : Char} {xs ys : List Char}
    (h : lexLeB (x :: xs) (y :: ys) = true) (hxy : x.toNat = y.toNat) :
    lexLeB xs ys = true := by
  simp only [lexLeB] at h
  split at h
  · omega
  · split at h
    · simp at h
    · exact h

theorem lexLeB_trans {a b c : List Char} (hab : lexLeB a b = true)
    (hbc : lexLeB b c = true) : lexLeB a c = true := by
  induction a generalizing b c with
  | nil => rfl
  | cons x xs ih =>
    cases b with
    | nil => simp [lexLeB] at hab
    | cons y ys =>
      cases c with
      | nil => simp [lexLeB] at hbc
      | cons z zs =>
        have h1 := lexLeB_head hab
        have h2 := lexLeB_head hbc
        simp only [lexLeB]
        split
        · rfl
        · split
          · omega
          · have hxy : x.toNat = y.toNat := by omega
            exact ih (lexLeB_tail hab hxy) (lexLeB_tail hbc (by omega))

instance : IsTotal String strLe :=
  ⟨fun a b => lexLeB_total a.data b.data⟩

instance : IsTrans String strLe :=
  ⟨fun _ _ _ hab hbc => lexLeB_trans hab hbc⟩

/-- Model of Python sorted on a list of strings: the ascending stable sort. -/
def pySorted (l : List String) : List String := List.insertionSort strLe l

theorem pySorted_perm (l : List String) : List.Perm (pySorted l) l :=
  List.perm_insertionSort strLe l

theorem pySorted_sorted (l : List String) : List.Sorted strLe (pySorted l) :=
  List.sorted_insertionSort strLe l

theorem mem_pySorted {a : String} {l : List String} : a ∈ pySorted l ↔ a ∈ l :=
  (pySorted_perm l).mem_iff

theorem count_pySorted (a : String) (l : List String) :
    (pySorted l).count a = l.count a :=
  (pySorted_perm l).count_eq a

/-! JSON text layer.  The source serializes the field list with
json.dumps(..., cls=LazyEncoder) and the documentation layer parses it
back with json.loads.  JValue models a JSON document; printJ models the
text json.dumps produces (default separators, mandatory escapes) and
parseJ models json.loads. -/

/-- JSON document tree. -/
inductive JValue where
  | null
  | bool (b : Bool)
  | num (n : Int)
  | str (s : String)
  | arr (xs : List JValue)
  | obj (members : List (String × JValue))

/-- Opening curly bracket character (JSON object delimiter). -/
def ocurl : Char := Char.ofNat 123

/-- Closing curly bracket character (JSON object delimiter). -/
def ccurl : Char := Char.ofNat 125

/-- Decimal digit character for d < 10. -/
def digitToChar : Nat → Char
  | 0 => '0' | 1 => '1' | 2 => '2' | 3 => '3' | 4 => '4'
  | 5 => '5' | 6 => '6' | 7 => '7' | 8 => '8' | _ => '9'

/-- Lower-case hexadecimal digit character for d < 16. -/
def hexDigitChar : Nat → Char
  | 0 => '0' | 1 => '1' | 2 => '2' | 3 => '3' | 4 => '4'
  | 5 => '5' | 6 => '6' | 7 => '7' | 8 => '8' | 9 => '9'
  | 10 => 'a' | 11 => 'b' | 12 => 'c' | 13 => 'd' | 14 => 'e' | _ => 'f'

/-- Little-endian decimal digits of n, with fuel ≥ n. -/
def natDigitsAux : Nat → Nat → List Nat
  | 0, _ => []
  | _ + 1, 0 => []
  | fuel + 1, n + 1 => ((n + 1) % 10) :: natDigitsAux fuel ((n + 1) / 10)

/-- Little-endian decimal digits of n (empty for 0). -/
def natToDigits (n : Nat) : List Nat := natDigitsAux n n

/-- Decimal character rendering of a natural number. -/
def natStrChars (n : Nat) : List Char :=
  if n = 0 then ['0'] else (natToDigits n).reverse.map digitToChar

/-- Decimal character rendering of an integer (Python repr of an int). -/
def intStrChars (n : Int) : List Char :=
  if n < 0 then '-' :: natStrChars (-n).toNat else natStrChars n.toNat

/-- JSON string escaping of one character: mandatory escapes only, control
characters below space as a unicode escape. -/
def escChar (c : Char) : List Char :=
  if c = '"' then ['\\', '"']
  else if c = '\\' then ['\\', '\\']
  else if c = '\n' then ['\\', 'n']
  else if c = '\t' then ['\\', 't']
  else if c = '\r' then ['\\', 'r']
  else if c.toNat < 32 then
    ['\\', 'u', '0', '0', hexDigitChar (c.toNat / 16), hexDigitChar (c.toNat % 16)]
  else [c]

/-- JSON string escaping of a character sequence. -/
def escList : List Char → List Char
  | [] => []
  | c :: cs => escChar c ++ escList cs

/-- JSON rendering of a string literal, quotes included. -/
def printStr (s : String) : List Char := '"' :: escList s.data ++ ['"']

mutual

/-- Text of a JSON value, as json.dumps renders it (", " and ": "
separators). -/
def printVal : JValue → List Char
  | .str s => printStr s
  | .num n => intStrChars n
  | .bool false => ['f', 'a', 'l', 's', 'e']
  | .bool true => ['t', 'r', 'u', 'e']
  | .null => ['n', 'u', 'l', 'l']
  | .arr [] => ['[', ']']
  | .arr (x :: xs) => '[' :: (printVal x ++ printElemsTail xs) ++ [']']
  | .obj [] => [ocurl, ccurl]
  | .obj (m :: ms) => ocurl :: (printMember m ++ printMembersTail ms) ++ [ccurl]

/-- Text of the remaining array elements, each preceded by a comma and a
space. -/
def printElemsTail : List JValue → List Char
  | [] => []
  | x :: xs => ',' :: ' ' :: (printVal x ++ printElemsTail xs)

/-- Text of one object member: quoted key, colon, space, value. -/
def printMember : String × JValue → List Char
  | (k, v) => printStr k ++ (':' :: ' ' :: printVal v)

/-- Text of the remaining object members, each preceded by a comma and a
space. -/
def printMembersTail : List (String × JValue) → List Char
  | [] => []
  | m :: ms => ',' :: ' ' :: (printMember m ++ printMembersTail ms)

end

/-- Whitespace characters json.loads skips between tokens (space, newline,
tab, carriage return, identified by code point). -/
def isWsChar (c : Char) : Bool :=
  c.toNat = 32 || c.toNat = 10 || c.toNat = 9 || c.toNat = 13

/-- Skip leading whitespace. -/
def skipWs : List Char → List Char
  | [] => []
  | c :: cs => if isWsChar c then skipWs cs else c :: cs

/-- ASCII decimal digit test. -/
def isDigitB (c : Char) : Bool := 48 ≤ c.toNat && c.toNat ≤ 57

/-- Value of a hexadecimal digit character. -/
def hexVal (c : Char) : Option Nat :=
  if 48 ≤ c.toNat && c.toNat ≤ 57 then some (c.toNat - 48)
  else if 97 ≤ c.toNat && c.toNat ≤ 102 then some (c.toNat - 87)
  else if 65 ≤ c.toNat && c.toNat ≤ 70 then some (c.toNat - 55)
  else none

/-- Resolution of a single-character JSON escape. -/
def unescChar (c : Char) : Option Char :=
  if c = '"' then some '"'
  else if c = '\\' then some '\\'
  else if c = '/' then some '/'
  else if c = 'n' then some '\n'
  else if c = 't' then some '\t'
  else if c = 'r' then some '\r'
  else if c = 'b' then some (Char.ofNat 8)
  else if c = 'f' then some (Char.ofNat 12)
  else none

/-- Parse the body of a JSON string after the opening quote; returns the
content characters and the input following the closing quote. -/
def parseStrBody : List Char → Option (List Char × List Char)
  | [] => Option.none
  | c :: cs =>
    if c = '"' then some ([], cs)
    else if c = '\\' then
      match cs with
      | [] => Option.none
      | e :: cs2 =>
        if e = 'u' then
          match cs2 with
          | h1 :: h2 :: h3 :: h4 :: cs3 => do
            let d1 ← hexVal h1
            let d2 ← hexVal h2
            let d3 ← hexVal h3
            let d4 ← hexVal h4
            let (content, rest) ← parseStrBody cs3
            some (Char.ofNat (((d1 * 16 + d2) * 16 + d3) * 16 + d4) :: content, rest)
          | _ => Option.none
        else do
          let u ← unescChar e
          let (content, rest) ← parseStrBody cs2
          some (u :: content, rest)
    else do
      let (content, rest) ← parseStrBody cs
      some (c :: content, rest)

/-- Parse a nonempty run of decimal digits into a natural number. -/
def parseNat (cs : List Char) : Option (Nat × List Char) :=
  let ds := cs.takeWhile isDigitB
  if ds.isEmpty then Option.none
  else some (ds.foldl (fun a c => 10 * a + (c.toNat - 48)) 0, cs.dropWhile isDigitB)

/-- Parse an optionally-signed decimal integer. -/
def parseInt : List Char → Option (Int × List Char)
  | [] => Option.none
  | c :: cs =>
    if c = '-' then (parseNat cs).map (fun p => (-(p.1 : Int), p.2))
    else (parseNat (c :: cs)).map (fun p => ((p.1 : Int), p.2))

mutual

/-- Parse one JSON value (model of json.loads); fuel bounds the nesting
recursion. -/
def parseVal : Nat → List Char → Option (JValue × List Char)
  | 0, _ => Option.none
  | fuel + 1, cs =>
    match skipWs cs with
    | [] => Option.none
    | c :: cs1 =>
      if c = '"' then
        (parseStrBody cs1).map (fun p => (JValue.str (String.mk p.1), p.2))
      else if c = '[' then
        match skipWs cs1 with
        | [] => Option.none
        | d :: rest =>
          if d = ']' then some (.arr [], rest)
          else (parseElems fuel (d :: rest)).map (fun p => (JValue.arr p.1, p.2))
      else if c = ocurl then
        match skipWs cs1 with
        | [] => Option.none
        | d :: rest =>
          if d = ccurl then some (.obj [], rest)
          else (parseMembers fuel (d :: rest)).map (fun p => (JValue.obj p.1, p.2))
      else if c = 't' then
        match cs1 with
        | 'r' :: 'u' :: 'e' :: rest => some (.bool true, rest)
        | _ => Option.none
      else if c = 'f' then
        match cs1 with
        | 'a' :: 'l' :: 's' :: 'e' :: rest => some (.bool false, rest)
        | _ => Option.none
      else if c = 'n' then
        match cs1 with
        | 'u' :: 'l' :: 'l' :: rest => some (.null, rest)
        | _ => Option.none
      else
        (parseInt (c :: cs1)).map (fun p => (JValue.num p.1, p.2))

/-- Parse a nonempty comma-separated element list up to and including the
closing square bracket. -/
def parseElems : Nat → List Char → Option (List JValue × List Char)
  | 0, _ => Option.none
  | fuel + 1, cs => do
    let (v, rest) ← parseVal fuel cs
    match skipWs rest with
    | [] => Option.none
    | d :: rest1 =>
      if d = ',' then (parseElems fuel rest1).map (fun p => (v :: p.1, p.2))
      else if d = ']' then some ([v], rest1)
      else Option.none

/-- Parse a nonempty comma-separated member list up to and including the
closing curly bracket. -/
def parseMembers : Nat → List Char → Option (List (String × JValue) × List Char)
  | 0, _ => Option.none
  | fuel + 1, cs =>
    match skipWs cs with
    | '"' :: cs1 => do
      let (kchars, rest) ← parseStrBody cs1
      match skipWs rest with
      | ':' :: rest1 => do
        let (v, rest2) ← parseVal fuel rest1
        match skipWs rest2 with
        | [] => Option.none
        | d :: rest3 =>
          if d = ',' then
            (parseMembers fuel rest3).map (fun p => ((String.mk kchars, v) :: p.1, p.2))
          else if d = ccurl then some ([(String.mk kchars, v)], rest3)
          else Option.none
      | _ => Option.none
    | _ => Option.none

end

/-- Model of json.loads on a complete document: parse one value and require
only whitespace to remain. -/
def parseJ (s : String) : Option JValue :=
  match parseVal (s.data.length + 1) s.data with
  | some (j, rest) => if (skipWs rest).isEmpty then some j else Option.none
  | Option.none => Option.none

/-- Input whose first character, if any, fails the test p. -/
def noLead (p : Char → Bool) : List Char → Bool
  | [] => true
  | c :: _ => !p c

/-- Input that does not begin with a decimal digit (so a preceding number
token cannot absorb it). -/
def noLeadingDigit (cs : List Char) : Bool := noLead isDigitB cs

/-- Little-endian decimal value of a digit list. -/
def natValLE : List Nat → Nat
  | [] => 0
  | d :: ds => d + 10 * natValLE ds

theorem natDigitsAux_val : ∀ fuel n, n ≤ fuel → natValLE (natDigitsAux fuel n) = n := by
  intro fuel
  induction fuel with
  | zero => intro n h; interval_cases n; rfl
  | succ f ih =>
    intro n h
    match n with
    | 0 => rfl
    | m + 1 =>
      have hdiv : (m + 1) / 10 ≤ f := by omega
      simp only [natDigitsAux, natValLE, ih _ hdiv]
      omega

theorem natDigitsAux_lt10 : ∀ fuel n d, d ∈ natDigitsAux fuel n → d < 10 := by
  intro fuel
  induction fuel with
  | zero => intro n d h; simp [natDigitsAux] at h
  | succ f ih =>
    intro n d h
    match n with
    | 0 => simp [natDigitsAux] at h
    | m + 1 =>
      simp only [natDigitsAux, List.mem_cons] at h
      rcases h with h | h
      · omega
      · exact ih _ _ h

theorem digitToChar_toNat {d : Nat} (h : d < 10) : (digitToChar d).toNat = 48 + d := by
  interval_cases d <;> rfl

theorem digitToChar_isDigit {d : Nat} (h : d < 10) : isDigitB (digitToChar d) = true := by
  interval_cases d <;> rfl

theorem takeWhile_all_append {p : Char → Bool} :
    ∀ ds rest, (∀ c ∈ ds, p c = true) → noLead p rest = true →
      List.takeWhile p (ds ++ rest) = ds ∧ List.dropWhile p (ds ++ rest) = rest := by
  intro ds
  induction ds with
  | nil =>
    intro rest _ hrest
    cases rest with
    | nil => exact ⟨rfl, rfl⟩
    | cons c cs =>
      simp only [noLead, Bool.not_eq_true'] at hrest
      simp [List.takeWhile, List.dropWhile, hrest]
  | cons d ds ih =>
    intro rest hall hrest
    have hd := hall d (by simp)
    have := ih rest (fun c hc => hall c (by simp [hc])) hrest
    simp [List.takeWhile, List.dropWhile, hd, this.1, this.2]

theorem foldl_digits_rev (step : Nat → Char → Nat)
    (hstep : ∀ a c, step a c = 10 * a + (c.toNat - 48)) :
    ∀ (l : List Nat) (a : Nat), (∀ d ∈ l, d < 10) →
      List.foldl step a ((l.reverse).map digitToChar) = a * 10 ^ l.length + natValLE l := by
  intro l
  induction l with
  | nil => intro a _; simp [natValLE]
  | cons d ds ih =>
    intro a hall
    have hd : d < 10 := hall d (by simp)
    have ihds := ih a (fun x hx => hall x (by simp [hx]))
    simp only [List.reverse_cons, List.map_append, List.foldl_append, List.map_cons,
      List.map_nil, List.foldl_cons, List.foldl_nil, natValLE, List.length_cons]
    rw [ihds, hstep, digitToChar_toNat hd]
    ring_nf
    omega

theorem natStrChars_digits : ∀ c ∈ natStrChars n, isDigitB c = true := by
  intro c hc
  unfold natStrChars at hc
  split at hc
  · simp at hc
    subst hc
    rfl
  · simp only [List.mem_map, List.mem_reverse] at hc
    obtain ⟨d, hd, rfl⟩ := hc
    exact digitToChar_isDigit (natDigitsAux_lt10 _ _ _ hd)

theorem natToDigits_ne_nil {n : Nat} (h : n ≠ 0) : natToDigits n ≠ [] := by
  unfold natToDigits
  match n, h with
  | m + 1, _ => simp [natDigitsAux]

theorem natStrChars_ne_nil (n : Nat) : natStrChars n ≠ [] := by
  unfold natStrChars
  split
  · simp
  · next h => simp [natToDigits_ne_nil h]

theorem natStrChars_foldl (n : Nat) :
    (natStrChars n).foldl (fun a c => 10 * a + (c.toNat - 48)) 0 = n := by
  unfold natStrChars
  split
  · next h => subst h; rfl
  · unfold natToDigits
    rw [foldl_digits_rev _ (fun _ _ => rfl) _ 0
      (fun d hd => natDigitsAux_lt10 _ _ _ hd)]
    simp [natDigitsAux_val n n (Nat.le_refl n)]

theorem parseNat_print (n : Nat) (rest : List Char) (hrest : noLeadingDigit rest = true) :
    parseNat (natStrChars n ++ rest) = some (n, rest) := by
  have htd := takeWhile_all_append (p := isDigitB) (natStrChars n) rest
    natStrChars_digits hrest
  simp only [parseNat, htd.1, htd.2, List.isEmpty_eq_true, natStrChars_ne_nil n,
    if_false, natStrChars_foldl]

theorem natStrChars_head_ne_minus (n : Nat) :
    ∀ c cs, natStrChars n = c :: cs → c ≠ '-' := by
  intro c cs h
  have hc : isDigitB c = true := natStrChars_digits (n := n) c (by simp [h])
  intro heq
  subst heq
  simp [isDigitB] at hc

theorem parseInt_print (n : Int) (rest : List Char) (hrest : noLeadingDigit rest = true) :
    parseInt (intStrChars n ++ rest) = some (n, rest) := by
  unfold intStrChars
  split
  · next hneg =>
    have hcast : (((-n).toNat : Nat) : Int) = -n := Int.toNat_of_nonneg (by omega)
    have h0 : parseInt ('-' :: (natStrChars (-n).toNat ++ rest)) =
        (parseNat (natStrChars (-n).toNat ++ rest)).map (fun p => (-(p.1 : Int), p.2)) :=
      rfl
    rw [List.cons_append, h0, parseNat_print _ _ hrest]
    simp [hcast]
  · next hpos =>
    have hcast : ((n.toNat : Nat) : Int) = n := Int.toNat_of_nonneg (by omega)
    rcases hne : natStrChars n.toNat with _ | ⟨c, cs⟩
    · exact absurd hne (natStrChars_ne_nil _)
    · have hcm := natStrChars_head_ne_minus n.toNat c cs hne
      have hpn := parseNat_print n.toNat rest hrest
      rw [hne, List.cons_append] at hpn
      have h0 : parseInt (c :: (cs ++ rest)) =
          (parseNat (c :: (cs ++ rest))).map (fun p => ((p.1 : Int), p.2)) := by
        simp only [parseInt, if_neg hcm]
      rw [List.cons_append, h0, hpn]
      simp [hcast]

theorem hexVal_hexDigitChar {d : Nat} (h : d < 16) : hexVal (hexDigitChar d) = some d := by
  interval_cases d <;> rfl

theorem parseStrBody_print : ∀ (data rest : List Char),
    parseStrBody (escList data ++ '"' :: rest) = some (data, rest) := by
  intro data
  induction data with
  | nil =>
    intro rest
    show parseStrBody ('"' :: rest) = some ([], rest)
    unfold parseStrBody
    simp
  | cons c cs ih =>
    intro rest
    by_cases h1 : c = '"'
    · subst h1
      show parseStrBody ('\\' :: '"' :: (escList cs ++ '"' :: rest)) = _
      unfold parseStrBody
      simp +decide [unescChar, ih rest]
    · by_cases h2 : c = '\\'
      · subst h2
        show parseStrBody ('\\' :: '\\' :: (escList cs ++ '"' :: rest)) = _
        unfold parseStrBody
        simp +decide [unescChar, ih rest]
      · by_cases h3 : c = '\n'
        · subst h3
          show parseStrBody ('\\' :: 'n' :: (escList cs ++ '"' :: rest)) = _
          unfold parseStrBody
          simp +decide [unescChar, ih rest]
        · by_cases h4 : c = '\t'
          · subst h4
            show parseStrBody ('\\' :: 't' :: (escList cs ++ '"' :: rest)) = _
            unfold parseStrBody
            simp +decide [unescChar, ih rest]
          · by_cases h5 : c = '\r'
            · subst h5
              show parseStrBody ('\\' :: 'r' :: (escList cs ++ '"' :: rest)) = _
              unfold parseStrBody
              simp +decide [unescChar, ih rest]
            · by_cases h6 : c.toNat < 32
              · have hdiv : c.toNat / 16 < 16 := by omega
                have hmod : c.toNat % 16 < 16 := by omega
                have harith : c.toNat / 16 * 16 + c.toNat % 16 = c.toNat := by omega
                have hesc : escChar c =
                    ['\\', 'u', '0', '0', hexDigitChar (c.toNat / 16),
                     hexDigitChar (c.toNat % 16)] := by
                  simp only [escChar, if_neg h1, if_neg h2, if_neg h3, if_neg h4,
                    if_neg h5, if_pos h6]
                rw [show escList (c :: cs) = escChar c ++ escList cs from rfl, hesc]
                simp only [List.cons_append, List.append_assoc, List.nil_append]
                unfold parseStrBody
                simp +decide [show hexVal '0' = some 0 from rfl,
                  hexVal_hexDigitChar hdiv, hexVal_hexDigitChar hmod,
                  ih rest, harith, Char.ofNat_toNat]
              · have hesc : escChar c = [c] := by
                  simp only [escChar, if_neg h1, if_neg h2, if_neg h3, if_neg h4,
                    if_neg h5, if_neg h6]
                rw [show escList (c :: cs) = escChar c ++ escList cs from rfl, hesc]
                simp only [List.cons_append, List.nil_append]
                unfold parseStrBody
                simp only [if_neg h1, if_neg h2, ih rest, Option.bind_eq_bind,
                  Option.some_bind]

theorem skipWs_space (cs : List Char) : skipWs (' ' :: cs) = skipWs cs := by
  simp [skipWs, isWsChar]

theorem skipWs_not_ws {c : Char} (h : isWsChar c = false) (cs : List Char) :
    skipWs (c :: cs) = c :: cs := by
  simp [skipWs, h]

theorem parseVal_ws (fuel : Nat) (cs : List Char) :
    parseVal fuel (' ' :: cs) = parseVal fuel cs := by
  cases fuel with
  | zero => rfl
  | succ f =>
    unfold parseVal
    rw [skipWs_space]

theorem parseElems_ws (fuel : Nat) (cs : List Char) :
    parseElems fuel (' ' :: cs) = parseElems fuel cs := by
  cases fuel with
  | zero => rfl
  | succ f =>
    unfold parseElems
    rw [parseVal_ws]

theorem parseMembers_ws (fuel : Nat) (cs : List Char) :
    parseMembers fuel (' ' :: cs) = parseMembers fuel cs := by
  cases fuel with
  | zero => rfl
  | succ f =>
    unfold parseMembers
    rw [skipWs_space]

set_option linter.unusedTactic false in
mutual

/-- Fuel sufficient for parseVal to parse the printed form of j. -/
def needV : JValue → Nat
  | .arr (x :: xs) => 1 + needElems x xs
  | .obj (m :: ms) => 1 + needMembers m ms
  | _ => 1
termination_by j => sizeOf j
decreasing_by all_goals first
  | (simp_wf; omega)
  | simp_wf

/-- Fuel sufficient for parseElems to parse the printed elements. -/
def needElems : JValue → List JValue → Nat
  | x, [] => 1 + needV x
  | x, y :: ys => 1 + max (needV x) (needElems y ys)
termination_by x xs => 1 + sizeOf x + sizeOf xs
decreasing_by all_goals first
  | (simp_wf; omega)
  | simp_wf

/-- Fuel sufficient for parseMembers to parse the printed members. -/
def needMembers : String × JValue → List (String × JValue) → Nat
  | (_, v), [] => 1 + needV v
  | (_, v), m2 :: ms => 1 + max (needV v) (needMembers m2 ms)
termination_by m ms => 1 + sizeOf m + sizeOf ms
decreasing_by all_goals first
  | (simp_wf; omega)
  | simp_wf

end

theorem needV_pos (j : JValue) : 1 ≤ needV j := by
  rw [needV.eq_def]
  split <;> omega

theorem needElems_pos (x : JValue) (xs : List JValue) : 1 ≤ needElems x xs := by
  rw [needElems.eq_def]
  split <;> omega

theorem needMembers_pos (m : String × JValue) (ms : List (String × JValue)) :
    1 ≤ needMembers m ms := by
  rw [needMembers.eq_def]
  split <;> omega

theorem digitB_not_ws {c : Char} (h : isDigitB c = true) : isWsChar c = false := by
  have hn : 48 ≤ c.toNat ∧ c.toNat ≤ 57 := by simpa [isDigitB] using h
  simp only [isWsChar, Bool.or_eq_false_iff, decide_eq_false_iff_not]
  omega

theorem numHead_props {c : Char} (h : c = '-' ∨ isDigitB c = true) :
    c ≠ '"' ∧ c ≠ '[' ∧ c ≠ ocurl ∧ c ≠ 't' ∧ c ≠ 'f' ∧ c ≠ 'n' ∧
      isWsChar c = false ∧ c ≠ ']' := by
  rcases h with rfl | hd
  · refine ⟨by decide, by decide, by decide, by decide, by decide, by decide,
      by decide, by decide⟩
  · have hn : 48 ≤ c.toNat ∧ c.toNat ≤ 57 := by
      simpa [isDigitB] using hd
    refine ⟨fun heq => ?_, fun heq => ?_, fun heq => ?_, fun heq => ?_,
      fun heq => ?_, fun heq => ?_, digitB_not_ws hd, fun heq => ?_⟩ <;>
      (subst heq; revert hn; decide)

theorem intStrChars_ne_nil (n : Int) : intStrChars n ≠ [] := by
  unfold intStrChars
  split
  · simp
  · exact natStrChars_ne_nil _

theorem intStrChars_head (n : Int) :
    ∀ c cs, intStrChars n = c :: cs → c = '-' ∨ isDigitB c = true := by
  intro c cs h
  unfold intStrChars at h
  split at h
  · injection h with h1 _
    exact Or.inl h1.symm
  · exact Or.inr (natStrChars_digits (n := _) c (h ▸ List.mem_cons_self c cs))

/-- The first character of a printed JSON value: never whitespace and never
a closing square bracket. -/
theorem printVal_start (j : JValue) :
    ∃ c cs, printVal j = c :: cs ∧ isWsChar c = false ∧ c ≠ ']' := by
  cases j with
  | null => exact ⟨'n', _, rfl, by decide, by decide⟩
  | bool b =>
    cases b with
    | true => exact ⟨'t', _, rfl, by decide, by decide⟩
    | false => exact ⟨'f', _, rfl, by decide, by decide⟩
  | num n =>
    rcases hne : intStrChars n with _ | ⟨c, cs⟩
    · exact absurd hne (intStrChars_ne_nil n)
    · have hp := numHead_props (intStrChars_head n c cs hne)
      exact ⟨c, cs, by unfold printVal; exact hne, hp.2.2.2.2.2.2.1, hp.2.2.2.2.2.2.2⟩
  | str s => exact ⟨'"', _, rfl, by decide, by decide⟩
  | arr xs =>
    cases xs with
    | nil => exact ⟨'[', _, rfl, by decide, by decide⟩
    | cons x xs => exact ⟨'[', _, rfl, by decide, by decide⟩
  | obj ms =>
    cases ms with
    | nil => exact ⟨ocurl, _, rfl, by decide, by decide⟩
    | cons m ms => exact ⟨ocurl, _, rfl, by decide, by decide⟩


theorem printVal_null : printVal .null = ['n', 'u', 'l', 'l'] := by
  rw [printVal.eq_def]

theorem printVal_true : printVal (.bool true) = ['t', 'r', 'u', 'e'] := by
  rw [printVal.eq_def]

theorem printVal_false : printVal (.bool false) = ['f', 'a', 'l', 's', 'e'] := by
  rw [printVal.eq_def]

theorem printVal_num (n : Int) : printVal (.num n) = intStrChars n := by
  rw [printVal.eq_def]

theorem printVal_str (s : String) : printVal (.str s) = printStr s := by
  rw [printVal.eq_def]

theorem printVal_arr_nil : printVal (.arr []) = ['[', ']'] := by
  rw [printVal.eq_def]

theorem printVal_arr_cons (x : JValue) (xs : List JValue) :
    printVal (.arr (x :: xs)) = '[' :: (printVal x ++ printElemsTail xs) ++ [']'] := by
  rw [printVal.eq_def]

theorem printVal_obj_nil : printVal (.obj []) = [ocurl, ccurl] := by
  rw [printVal.eq_def]

theorem printVal_obj_cons (m : String × JValue) (ms : List (String × JValue)) :
    printVal (.obj (m :: ms)) = ocurl :: (printMember m ++ printMembersTail ms) ++ [ccurl] := by
  rw [printVal.eq_def]

theorem printElemsTail_nil : printElemsTail [] = [] := by
  rw [printElemsTail.eq_def]

theorem printElemsTail_cons (x : JValue) (xs : List JValue) :
    printElemsTail (x :: xs) = ',' :: ' ' :: (printVal x ++ printElemsTail xs) := by
  rw [printElemsTail.eq_def]

theorem printMember_eq (k : String) (v : JValue) :
    printMember (k, v) = printStr k ++ (':' :: ' ' :: printVal v) := by
  rw [printMember.eq_def]

theorem printMembersTail_nil : printMembersTail [] = [] := by
  rw [printMembersTail.eq_def]

theorem printMembersTail_cons (m : String × JValue) (ms : List (String × JValue)) :
    printMembersTail (m :: ms) = ',' :: ' ' :: (printMember m ++ printMembersTail ms) := by
  rw [printMembersTail.eq_def]

theorem needV_arr_cons (x : JValue) (xs : List JValue) :
    needV (.arr (x :: xs)) = 1 + needElems x xs := by
  rw [needV.eq_def]

theorem needV_obj_cons (m : String × JValue) (ms : List (String × JValue)) :
    needV (.obj (m :: ms)) = 1 + needMembers m ms := by
  rw [needV.eq_def]

theorem needV_null : needV .null = 1 := by
  rw [needV.eq_def]

theorem needV_bool (b : Bool) : needV (.bool b) = 1 := by
  rw [needV.eq_def]

theorem needV_num (n : Int) : needV (.num n) = 1 := by
  rw [needV.eq_def]

theorem needV_str (s : String) : needV (.str s) = 1 := by
  rw [needV.eq_def]

theorem needV_arr_nil : needV (.arr []) = 1 := by
  rw [needV.eq_def]

theorem needV_obj_nil : needV (.obj []) = 1 := by
  rw [needV.eq_def]

theorem needElems_nil (x : JValue) : needElems x [] = 1 + needV x := by
  rw [needElems.eq_def]

theorem needElems_cons (x y : JValue) (ys : List JValue) :
    needElems x (y :: ys) = 1 + max (needV x) (needElems y ys) := by
  rw [needElems.eq_def]

theorem needMembers_nil (k : String) (v : JValue) :
    needMembers (k, v) [] = 1 + needV v := by
  rw [needMembers.eq_def]

theorem needMembers_cons (k : String) (v : JValue) (m2 : String × JValue)
    (ms : List (String × JValue)) :
    needMembers (k, v) (m2 :: ms) = 1 + max (needV v) (needMembers m2 ms) := by
  rw [needMembers.eq_def]


theorem parseVal_succ (f : Nat) (cs : List Char) :
    parseVal (f + 1) cs =
      match skipWs cs with
      | [] => Option.none
      | c :: cs1 =>
        if c = '"' then
          (parseStrBody cs1).map (fun p => (JValue.str (String.mk p.1), p.2))
        else if c = '[' then
          match skipWs cs1 with
          | [] => Option.none
          | d :: rest =>
            if d = ']' then some (.arr [], rest)
            else (parseElems f (d :: rest)).map (fun p => (JValue.arr p.1, p.2))
        else if c = ocurl then
          match skipWs cs1 with
          | [] => Option.none
          | d :: rest =>
            if d = ccurl then some (.obj [], rest)
            else (parseMembers f (d :: rest)).map (fun p => (JValue.obj p.1, p.2))
        else if c = 't' then
          match cs1 with
          | 'r' :: 'u' :: 'e' :: rest => some (.bool true, rest)
          | _ => Option.none
        else if c = 'f' then
          match cs1 with
          | 'a' :: 'l' :: 's' :: 'e' :: rest => some (.bool false, rest)
          | _ => Option.none
        else if c = 'n' then
          match cs1 with
          | 'u' :: 'l' :: 'l' :: rest => some (.null, rest)
          | _ => Option.none
        else
          (parseInt (c :: cs1)).map (fun p => (JValue.num p.1, p.2)) := by
  rw [parseVal.eq_def]

theorem parseElems_succ (f : Nat) (cs : List Char) :
    parseElems (f + 1) cs = (do
      let (v, rest) ← parseVal f cs
      match skipWs rest with
      | [] => Option.none
      | d :: rest1 =>
        if d = ',' then (parseElems f rest1).map (fun p => (v :: p.1, p.2))
        else if d = ']' then some ([v], rest1)
        else Option.none) := by
  rw [parseElems.eq_def]

theorem parseMembers_succ (f : Nat) (cs : List Char) :
    parseMembers (f + 1) cs =
      (match skipWs cs with
      | '"' :: cs1 => do
        let (kchars, rest) ← parseStrBody cs1
        match skipWs rest with
        | ':' :: rest1 => do
          let (v, rest2) ← parseVal f rest1
          match skipWs rest2 with
          | [] => Option.none
          | d :: rest3 =>
            if d = ',' then
              (parseMembers f rest3).map (fun p => ((String.mk kchars, v) :: p.1, p.2))
            else if d = ccurl then some ([(String.mk kchars, v)], rest3)
            else Option.none
        | _ => Option.none
      | _ => Option.none) := by
  rw [parseMembers.eq_def]


/-- Roundtrip of the printer and parser, by strong induction on the size of
the value: parsing the printed form returns the value, given enough fuel and
a following input that does not start with a digit. -/
theorem parse_print_strong : ∀ N : Nat,
    (∀ j : JValue, sizeOf j ≤ N → ∀ fuel rest, needV j ≤ fuel →
      noLeadingDigit rest = true →
      parseVal fuel (printVal j ++ rest) = some (j, rest)) ∧
    (∀ (x : JValue) (xs : List JValue), 1 + sizeOf x + sizeOf xs ≤ N →
      ∀ fuel rest, needElems x xs ≤ fuel → noLeadingDigit rest = true →
      parseElems fuel (printVal x ++ (printElemsTail xs ++ (']' :: rest)))
        = some (x :: xs, rest)) ∧
    (∀ (m : String × JValue) (ms : List (String × JValue)),
      1 + sizeOf m + sizeOf ms ≤ N →
      ∀ fuel rest, needMembers m ms ≤ fuel → noLeadingDigit rest = true →
      parseMembers fuel (printMember m ++ (printMembersTail ms ++ (ccurl :: rest)))
        = some (m :: ms, rest)) := by
  intro N
  induction N using Nat.strong_induction_on with
  | _ N ih =>
  refine ⟨?_, ?_, ?_⟩
  · intro j hsz fuel rest hf hrest
    cases fuel with
    | zero => exact absurd hf (by have := needV_pos j; omega)
    | succ f =>
      cases j with
      | null =>
        rw [printVal_null, parseVal_succ]
        simp only [List.cons_append, List.nil_append]
        rw [show skipWs ('n' :: 'u' :: 'l' :: 'l' :: rest) = 'n' :: 'u' :: 'l' :: 'l' :: rest
          from skipWs_not_ws (by decide) _]
        simp +decide
      | bool b =>
        cases b with
        | true =>
          rw [printVal_true, parseVal_succ]
          simp only [List.cons_append, List.nil_append]
          rw [show skipWs ('t' :: 'r' :: 'u' :: 'e' :: rest) = 't' :: 'r' :: 'u' :: 'e' :: rest
            from skipWs_not_ws (by decide) _]
          simp +decide
        | false =>
          rw [printVal_false, parseVal_succ]
          simp only [List.cons_append, List.nil_append]
          rw [show skipWs ('f' :: 'a' :: 'l' :: 's' :: 'e' :: rest)
              = 'f' :: 'a' :: 'l' :: 's' :: 'e' :: rest
            from skipWs_not_ws (by decide) _]
          simp +decide
      | num n =>
        rw [printVal_num]
        rcases hne : intStrChars n with _ | ⟨c, cs⟩
        · exact absurd hne (intStrChars_ne_nil n)
        · obtain ⟨hq, hlb, hoc, ht, hfc, hn2, hws, _⟩ :=
            numHead_props (intStrChars_head n c cs hne)
          rw [List.cons_append, parseVal_succ, skipWs_not_ws hws]
          simp only []
          rw [if_neg hq, if_neg hlb, if_neg hoc, if_neg ht, if_neg hfc, if_neg hn2]
          rw [← List.cons_append, ← hne, parseInt_print n rest hrest]
          rfl
      | str s =>
        have hshape : printVal (.str s) ++ rest
            = '"' :: (escList s.data ++ ('"' :: rest)) := by
          rw [printVal_str]
          unfold printStr
          simp
        rw [hshape, parseVal_succ, skipWs_not_ws (by decide)]
        simp only []
        rw [if_true, parseStrBody_print s.data rest]
        rfl
      | arr xs =>
        cases xs with
        | nil =>
          rw [printVal_arr_nil, parseVal_succ]
          simp only [List.cons_append, List.nil_append]
          rw [show skipWs ('[' :: ']' :: rest) = '[' :: ']' :: rest
            from skipWs_not_ws (by decide) _]
          simp +decide [skipWs_not_ws (show isWsChar ']' = false by decide)]
        | cons x xs =>
          have hlt : 1 + sizeOf x + sizeOf xs < N := by
            simp only [JValue.arr.sizeOf_spec, List.cons.sizeOf_spec] at hsz
            omega
          have hshape : printVal (.arr (x :: xs)) ++ rest
              = '[' :: (printVal x ++ (printElemsTail xs ++ (']' :: rest))) := by
            rw [printVal_arr_cons]
            simp
          rw [hshape, parseVal_succ, skipWs_not_ws (by decide)]
          simp only []
          rw [if_neg (by decide : ¬('[' : Char) = '"'), if_true]
          obtain ⟨c0, cs0, hx0, hws0, hrb0⟩ := printVal_start x
          rw [hx0, List.cons_append, skipWs_not_ws hws0]
          simp only []
          rw [if_neg hrb0, ← List.cons_append, ← hx0]
          have hneed : needElems x xs ≤ f := by
            have := needV_arr_cons x xs
            omega
          rw [(ih _ hlt).2.1 x xs (le_refl _) f rest hneed hrest]
          rfl
      | obj ms =>
        cases ms with
        | nil =>
          rw [printVal_obj_nil, parseVal_succ]
          simp only [List.cons_append, List.nil_append]
          rw [show skipWs (ocurl :: ccurl :: rest) = ocurl :: ccurl :: rest
            from skipWs_not_ws (by decide) _]
          simp +decide [skipWs_not_ws (show isWsChar ccurl = false by decide)]
        | cons m ms =>
          have hlt : 1 + sizeOf m + sizeOf ms < N := by
            simp only [JValue.obj.sizeOf_spec, List.cons.sizeOf_spec] at hsz
            omega
          obtain ⟨k, v⟩ := m
          have hshape : printVal (.obj ((k, v) :: ms)) ++ rest
              = ocurl :: (printMember (k, v) ++ (printMembersTail ms ++ (ccurl :: rest))) := by
            rw [printVal_obj_cons]
            simp
          rw [hshape, parseVal_succ, skipWs_not_ws (by decide)]
          simp only []
          rw [if_neg (by decide : ¬ocurl = '"'), if_neg (by decide : ¬ocurl = '['),
            if_true]
          have hmshape : printMember (k, v) ++ (printMembersTail ms ++ (ccurl :: rest))
              = '"' :: (escList k.data
                  ++ ('"' :: (':' :: ' ' :: (printVal v
                    ++ (printMembersTail ms ++ (ccurl :: rest)))))) := by
            rw [printMember_eq]
            unfold printStr
            simp
          rw [hmshape, skipWs_not_ws (by decide)]
          simp only []
          rw [if_neg (by decide : ¬('"' : Char) = ccurl), ← hmshape]
          have hneed : needMembers (k, v) ms ≤ f := by
            have := needV_obj_cons (k, v) ms
            omega
          rw [(ih _ hlt).2.2 (k, v) ms (le_refl _) f rest hneed hrest]
          rfl
  · intro x xs hsz fuel rest hf hrest
    cases fuel with
    | zero => exact absurd hf (by have := needElems_pos x xs; omega)
    | succ f =>
      have hltx : sizeOf x < N := by omega
      rw [parseElems_succ]
      have hrest2 : noLeadingDigit (printElemsTail xs ++ (']' :: rest)) = true := by
        cases xs with
        | nil => rw [printElemsTail_nil, List.nil_append]; rfl
        | cons y ys => rw [printElemsTail_cons, List.cons_append]; rfl
      have hv : needV x ≤ f := by
        cases xs with
        | nil => have := needElems_nil x; omega
        | cons y ys => have := needElems_cons x y ys; omega
      rw [(ih _ hltx).1 x (le_refl _) f _ hv hrest2]
      simp only [Option.bind_eq_bind, Option.some_bind]
      cases xs with
      | nil =>
        rw [printElemsTail_nil, List.nil_append]
        rw [show skipWs (']' :: rest) = ']' :: rest from skipWs_not_ws (by decide) _]
        simp +decide
      | cons y ys =>
        have hlt : 1 + sizeOf y + sizeOf ys < N := by
          simp only [List.cons.sizeOf_spec] at hsz
          omega
        rw [printElemsTail_cons]
        have hshape : (',' :: ' ' :: (printVal y ++ printElemsTail ys)) ++ (']' :: rest)
            = ',' :: ' ' :: (printVal y ++ (printElemsTail ys ++ (']' :: rest))) := by
          simp
        rw [hshape]
        rw [show skipWs (',' :: ' ' :: (printVal y ++ (printElemsTail ys ++ (']' :: rest))))
            = ',' :: ' ' :: (printVal y ++ (printElemsTail ys ++ (']' :: rest)))
          from skipWs_not_ws (by decide) _]
        simp only []
        rw [if_true, parseElems_ws]
        have hneed : needElems y ys ≤ f := by
          have := needElems_cons x y ys
          omega
        rw [(ih _ hlt).2.1 y ys (le_refl _) f rest hneed hrest]
        rfl
  · intro m ms hsz fuel rest hf hrest
    cases fuel with
    | zero => exact absurd hf (by have := needMembers_pos m ms; omega)
    | succ f =>
      obtain ⟨k, v⟩ := m
      have hltv : sizeOf v < N := by
        simp only [Prod.mk.sizeOf_spec] at hsz
        omega
      have hmshape : printMember (k, v) ++ (printMembersTail ms ++ (ccurl :: rest))
          = '"' :: (escList k.data
              ++ ('"' :: (':' :: ' ' :: (printVal v
                ++ (printMembersTail ms ++ (ccurl :: rest)))))) := by
        rw [printMember_eq]
        unfold printStr
        simp
      rw [parseMembers_succ, hmshape, skipWs_not_ws (by decide)]
      simp only []
      rw [parseStrBody_print k.data _]
      simp only [Option.bind_eq_bind, Option.some_bind]
      rw [show skipWs (':' :: ' ' :: (printVal v ++ (printMembersTail ms ++ (ccurl :: rest))))
          = ':' :: ' ' :: (printVal v ++ (printMembersTail ms ++ (ccurl :: rest)))
        from skipWs_not_ws (by decide) _]
      simp only []
      have hrest2 : noLeadingDigit (printMembersTail ms ++ (ccurl :: rest)) = true := by
        cases ms with
        | nil => rw [printMembersTail_nil, List.nil_append]; rfl
        | cons m2 ms2 => rw [printMembersTail_cons, List.cons_append]; rfl
      have hv : needV v ≤ f := by
        cases ms with
        | nil => have := needMembers_nil k v; omega
        | cons m2 ms2 => have := needMembers_cons k v m2 ms2; omega
      rw [parseVal_ws, (ih _ hltv).1 v (le_refl _) f _ hv hrest2]
      simp only [Option.bind_eq_bind, Option.some_bind]
      cases ms with
      | nil =>
        rw [printMembersTail_nil, List.nil_append]
        rw [show skipWs (ccurl :: rest) = ccurl :: rest from skipWs_not_ws (by decide) _]
        have hk : String.mk k.data = k := rfl
        simp +decide [hk]
      | cons m2 ms2 =>
        have hlt : 1 + sizeOf m2 + sizeOf ms2 < N := by
          simp only [List.cons.sizeOf_spec] at hsz
          omega
        rw [printMembersTail_cons]
        have hshape : (',' :: ' ' :: (printMember m2 ++ printMembersTail ms2)) ++ (ccurl :: rest)
            = ',' :: ' ' :: (printMember m2 ++ (printMembersTail ms2 ++ (ccurl :: rest))) := by
          simp
        rw [hshape]
        rw [show skipWs (',' :: ' ' :: (printMember m2 ++ (printMembersTail ms2 ++ (ccurl :: rest))))
            = ',' :: ' ' :: (printMember m2 ++ (printMembersTail ms2 ++ (ccurl :: rest)))
          from skipWs_not_ws (by decide) _]
        simp only []
        rw [if_true, parseMembers_ws]
        have hneed : needMembers m2 ms2 ≤ f := by
          have := needMembers_cons k v m2 ms2
          omega
        rw [(ih _ hlt).2.2 m2 ms2 (le_refl _) f rest hneed hrest]
        have hk : String.mk k.data = k := rfl
        simp [hk]

/-- Parsing the printed form of a JSON value returns the value. -/
theorem parseVal_print (j : JValue) (fuel : Nat) (rest : List Char)
    (hf : needV j ≤ fuel) (hrest : noLeadingDigit rest = true) :
    parseVal fuel (printVal j ++ rest) = some (j, rest) :=
  (parse_print_strong (sizeOf j)).1 j (le_refl _) fuel rest hf hrest


/-- The parsing fuel needed for a value is at most the length of its printed
form (plus one), by strong induction on the size of the value. -/
theorem need_le_len_strong : ∀ N : Nat,
    (∀ j : JValue, sizeOf j ≤ N → needV j ≤ (printVal j).length) ∧
    (∀ (x : JValue) (xs : List JValue), 1 + sizeOf x + sizeOf xs ≤ N →
      needElems x xs ≤ (printVal x).length + (printElemsTail xs).length + 1) ∧
    (∀ (m : String × JValue) (ms : List (String × JValue)),
      1 + sizeOf m + sizeOf ms ≤ N →
      needMembers m ms ≤ (printMember m).length + (printMembersTail ms).length + 1) := by
  intro N
  induction N using Nat.strong_induction_on with
  | _ N ih =>
  refine ⟨?_, ?_, ?_⟩
  · intro j hsz
    cases j with
    | null => rw [printVal_null]; rw [needV_null]; simp
    | bool b =>
      cases b with
      | true => rw [printVal_true]; rw [needV_bool]; simp
      | false => rw [printVal_false]; rw [needV_bool]; simp
    | num n =>
      rw [printVal_num, needV_num n]
      rcases hne : intStrChars n with _ | ⟨c, cs⟩
      · exact absurd hne (intStrChars_ne_nil n)
      · simp [hne]
    | str s =>
      rw [printVal_str, needV_str s]
      unfold printStr
      simp
    | arr xs =>
      cases xs with
      | nil => rw [printVal_arr_nil, needV_arr_nil]; simp
      | cons x xs =>
        have hlt : 1 + sizeOf x + sizeOf xs < N := by
          simp only [JValue.arr.sizeOf_spec, List.cons.sizeOf_spec] at hsz
          omega
        have h2 := (ih _ hlt).2.1 x xs (le_refl _)
        rw [printVal_arr_cons, needV_arr_cons]
        simp only [List.append_assoc, List.cons_append, List.length_cons,
          List.length_append, List.length_cons, List.length_nil]
        omega
    | obj ms =>
      cases ms with
      | nil => rw [printVal_obj_nil, needV_obj_nil]; simp
      | cons m ms =>
        have hlt : 1 + sizeOf m + sizeOf ms < N := by
          simp only [JValue.obj.sizeOf_spec, List.cons.sizeOf_spec] at hsz
          omega
        have h2 := (ih _ hlt).2.2 m ms (le_refl _)
        rw [printVal_obj_cons, needV_obj_cons]
        simp only [List.append_assoc, List.cons_append, List.length_cons,
          List.length_append, List.length_nil]
        omega
  · intro x xs hsz
    have hltx : sizeOf x < N := by omega
    have h1 := (ih _ hltx).1 x (le_refl _)
    cases xs with
    | nil =>
      rw [needElems_nil, printElemsTail_nil]
      simp only [List.length_nil]
      omega
    | cons y ys =>
      have hlt : 1 + sizeOf y + sizeOf ys < N := by
        simp only [List.cons.sizeOf_spec] at hsz
        omega
      have h2 := (ih _ hlt).2.1 y ys (le_refl _)
      rw [needElems_cons, printElemsTail_cons]
      simp only [List.length_cons, List.length_append]
      omega
  · intro m ms hsz
    obtain ⟨k, v⟩ := m
    have hltv : sizeOf v < N := by
      simp only [Prod.mk.sizeOf_spec] at hsz
      omega
    have h1 := (ih _ hltv).1 v (le_refl _)
    have hm : (printMember (k, v)).length = (printStr k).length + 2 + (printVal v).length := by
      rw [printMember_eq]
      simp only [List.length_append, List.length_cons]
      omega
    cases ms with
    | nil =>
      rw [needMembers_nil, printMembersTail_nil]
      simp only [List.length_nil]
      omega
    | cons m2 ms2 =>
      have hlt : 1 + sizeOf m2 + sizeOf ms2 < N := by
        simp only [Prod.mk.sizeOf_spec, List.cons.sizeOf_spec] at hsz
        omega
      have h2 := (ih _ hlt).2.2 m2 ms2 (le_refl _)
      rw [needMembers_cons, printMembersTail_cons]
      simp only [List.length_cons, List.length_append]
      omega

theorem needV_le_printLen (j : JValue) : needV j ≤ (printVal j).length :=
  (need_le_len_strong (sizeOf j)).1 j (le_refl _)

/-- Document-level roundtrip: parsing the printed text of a JSON value with
the json.loads model returns exactly that value. -/
theorem parseJ_print (j : JValue) : parseJ (String.mk (printVal j)) = some j := by
  unfold parseJ
  have hdata : (String.mk (printVal j)).data = printVal j := rfl
  rw [hdata]
  have hpad : printVal j = printVal j ++ ([] : List Char) := by simp
  rw [show parseVal ((printVal j).length + 1) (printVal j)
      = parseVal ((printVal j).length + 1) (printVal j ++ ([] : List Char)) by rw [← hpad]]
  rw [parseVal_print j ((printVal j).length + 1) []
    (by have := needV_le_printLen j; omega) rfl]
  rfl


/-- Python str() for the scalar values that occur as dictionary keys in this
module (strings, lazy strings, booleans, integers, None).  The module never
applies str to a list or dict (dict keys are hashable scalars); those cases
are modelled by a constant placeholder. -/
def pyStr : PyVal → String
  | .str s => s
  | .promise s => s
  | .bool b => if b then "True" else "False"
  | .int n => String.mk (intStrChars n)
  | .none => "None"
  | .list _ => "<list>"
  | .dict _ => "<dict>"

/-- Python truthiness of a value (used by the expression
field.help_text or ''). -/
def pyTruthy : PyVal → Bool
  | .str s => !(s == "")
  | .promise s => !(s == "")
  | .bool b => b
  | .int n => !(n == 0)
  | .none => false
  | .list xs => !xs.isEmpty
  | .dict es => !es.isEmpty

/-- Python expression a or b. -/
def pyOr (a b : PyVal) : PyVal := if pyTruthy a then a else b

/-- Python isinstance(v, str): true only for a real str, not for a lazy
translation proxy. -/
def isStr : PyVal → Bool
  | .str _ => true
  | _ => false

mutual

/-- Python equality on the values this module compares.  Structural,
pairwise and order-sensitive on dicts, so pyEq a b = true implies the
Python expression a == b is True; a lazy translation proxy compares equal
to its realised string, as django's lazy proxies do. -/
def pyEq : PyVal → PyVal → Bool
  | .str a, .str b => a == b
  | .str a, .promise b => a == b
  | .promise a, .str b => a == b
  | .promise a, .promise b => a == b
  | .bool a, .bool b => a == b
  | .int a, .int b => a == b
  | .none, .none => true
  | .list xs, .list ys => pyEqList xs ys
  | .dict xs, .dict ys => pyEqEntries xs ys
  | _, _ => false

/-- Pairwise pyEq on lists. -/
def pyEqList : List PyVal → List PyVal → Bool
  | [], [] => true
  | x :: xs, y :: ys => pyEq x y && pyEqList xs ys
  | _, _ => false

/-- Pairwise pyEq on dict entry lists. -/
def pyEqEntries : List (PyVal × PyVal) → List (PyVal × PyVal) → Bool
  | [], [] => true
  | (k1, v1) :: xs, (k2, v2) :: ys => pyEq k1 k2 && pyEq v1 v2 && pyEqEntries xs ys
  | _, _ => false

end

/-- JSON object key produced by json.dumps for a Python dict key: str keys
verbatim, int/bool/None coerced; any other key type (including a lazy
translation proxy, which is not a str) raises TypeError. -/
def jsonKey : PyVal → Except String String
  | .str s => .ok s
  | .int n => .ok (String.mk (intStrChars n))
  | .bool b => .ok (if b then "true" else "false")
  | .none => .ok "null"
  | _ => .error "TypeError: keys must be str, int, float, bool or None, not a lazy proxy"

/-- Total companion of jsonKey used to state results (meaningful on str
keys, which is the only key shape well-formed field trees contain). -/
def jKeyStr : PyVal → String
  | .str s => s
  | .int n => String.mk (intStrChars n)
  | .bool b => if b then "true" else "false"
  | .none => "null"
  | _ => ""

mutual

/-- Conversion of a Python value to a JSON value, as json.dumps with
cls=LazyEncoder performs it: LazyEncoder.default realises a lazy translation
proxy with force_text, every other supported value encodes structurally, and
an unencodable value raises TypeError. -/
def pyToJson : PyVal → Except String JValue
  | .str s => .ok (.str s)
  | .promise s => .ok (.str s)
  | .bool b => .ok (.bool b)
  | .int n => .ok (.num n)
  | .none => .ok .null
  | .list xs => do pure (JValue.arr (← pyToJsonList xs))
  | .dict es => do pure (JValue.obj (← pyToJsonEntries es))

/-- Encode the elements of a Python list. -/
def pyToJsonList : List PyVal → Except String (List JValue)
  | [] => .ok []
  | x :: xs => do pure ((← pyToJson x) :: (← pyToJsonList xs))

/-- Encode the entries of a Python dict. -/
def pyToJsonEntries : List (PyVal × PyVal) → Except String (List (String × JValue))
  | [] => .ok []
  | (k, v) :: es => do pure ((← jsonKey k, ← pyToJson v) :: (← pyToJsonEntries es))

end

mutual

/-- Total encoding of a Python value (agrees with pyToJson on well-formed
values). -/
def jOfPy : PyVal → JValue
  | .str s => .str s
  | .promise s => .str s
  | .bool b => .bool b
  | .int n => .num n
  | .none => .null
  | .list xs => .arr (jOfPyList xs)
  | .dict es => .obj (jOfPyEntries es)

/-- Total encoding of list elements. -/
def jOfPyList : List PyVal → List JValue
  | [] => []
  | x :: xs => jOfPy x :: jOfPyList xs

/-- Total encoding of dict entries. -/
def jOfPyEntries : List (PyVal × PyVal) → List (String × JValue)
  | [] => []
  | (k, v) :: es => (jKeyStr k, jOfPy v) :: jOfPyEntries es

end

mutual

/-- Python value produced by json.loads from a JSON value. -/
def pyOfJson : JValue → PyVal
  | .null => .none
  | .bool b => .bool b
  | .num n => .int n
  | .str s => .str s
  | .arr xs => .list (pyOfJsonList xs)
  | .obj ms => .dict (pyOfJsonMembers ms)

/-- Decode array elements. -/
def pyOfJsonList : List JValue → List PyVal
  | [] => []
  | x :: xs => pyOfJson x :: pyOfJsonList xs

/-- Decode object members (keys become Python str). -/
def pyOfJsonMembers : List (String × JValue) → List (PyVal × PyVal)
  | [] => []
  | (k, v) :: ms => (.str k, pyOfJson v) :: pyOfJsonMembers ms

end

mutual

/-- Well-formedness of a Python value for json.dumps with LazyEncoder:
scalars (including lazy strings) are fine, lists need well-formed elements,
dicts need str keys and well-formed values. -/
def wfPy : PyVal → Bool
  | .list xs => wfPyList xs
  | .dict es => wfPyEntries es
  | _ => true

/-- Well-formedness of list elements. -/
def wfPyList : List PyVal → Bool
  | [] => true
  | x :: xs => wfPy x && wfPyList xs

/-- Well-formedness of dict entries. -/
def wfPyEntries : List (PyVal × PyVal) → Bool
  | [] => true
  | (k, v) :: es => isStr k && wfPy v && wfPyEntries es

end

/-- Model of json.dumps(value, cls=LazyEncoder): encode, then print the
JSON text. -/
def dumps (v : PyVal) : Except String String :=
  (pyToJson v).map (fun j => String.mk (printVal j))


theorem pyToJson_str (s : String) : pyToJson (.str s) = .ok (.str s) := by
  rw [pyToJson.eq_def]

theorem pyToJson_promise (s : String) : pyToJson (.promise s) = .ok (.str s) := by
  rw [pyToJson.eq_def]

theorem pyToJson_bool (b : Bool) : pyToJson (.bool b) = .ok (.bool b) := by
  rw [pyToJson.eq_def]

theorem pyToJson_int (n : Int) : pyToJson (.int n) = .ok (.num n) := by
  rw [pyToJson.eq_def]

theorem pyToJson_none : pyToJson .none = .ok .null := by
  rw [pyToJson.eq_def]

theorem pyToJson_list (xs : List PyVal) :
    pyToJson (.list xs) = (pyToJsonList xs).bind (fun l => .ok (.arr l)) := by
  rw [pyToJson.eq_def]
  simp only []
  rfl

theorem pyToJson_dict (es : List (PyVal × PyVal)) :
    pyToJson (.dict es) = (pyToJsonEntries es).bind (fun l => .ok (.obj l)) := by
  rw [pyToJson.eq_def]
  simp only []
  rfl

theorem pyToJsonList_nil : pyToJsonList [] = .ok [] := by
  rw [pyToJsonList.eq_def]

theorem pyToJsonList_cons (x : PyVal) (xs : List PyVal) :
    pyToJsonList (x :: xs)
      = (pyToJson x).bind (fun j => (pyToJsonList xs).bind (fun l => .ok (j :: l))) := by
  rw [pyToJsonList.eq_def]
  simp only []
  rfl

theorem pyToJsonEntries_nil : pyToJsonEntries [] = .ok [] := by
  rw [pyToJsonEntries.eq_def]

theorem pyToJsonEntries_cons (k v : PyVal) (es : List (PyVal × PyVal)) :
    pyToJsonEntries ((k, v) :: es)
      = (jsonKey k).bind (fun ks => (pyToJson v).bind
          (fun j => (pyToJsonEntries es).bind (fun l => .ok ((ks, j) :: l)))) := by
  rw [pyToJsonEntries.eq_def]
  simp only []
  rfl

theorem jOfPy_str (s : String) : jOfPy (.str s) = .str s := by
  rw [jOfPy.eq_def]

theorem jOfPy_promise (s : String) : jOfPy (.promise s) = .str s := by
  rw [jOfPy.eq_def]

theorem jOfPy_bool (b : Bool) : jOfPy (.bool b) = .bool b := by
  rw [jOfPy.eq_def]

theorem jOfPy_int (n : Int) : jOfPy (.int n) = .num n := by
  rw [jOfPy.eq_def]

theorem jOfPy_none : jOfPy .none = .null := by
  rw [jOfPy.eq_def]

theorem jOfPy_list (xs : List PyVal) : jOfPy (.list xs) = .arr (jOfPyList xs) := by
  rw [jOfPy.eq_def]

theorem jOfPy_dict (es : List (PyVal × PyVal)) :
    jOfPy (.dict es) = .obj (jOfPyEntries es) := by
  rw [jOfPy.eq_def]

theorem jOfPyList_nil : jOfPyList [] = [] := by
  rw [jOfPyList.eq_def]

theorem jOfPyList_cons (x : PyVal) (xs : List PyVal) :
    jOfPyList (x :: xs) = jOfPy x :: jOfPyList xs := by
  rw [jOfPyList.eq_def]

theorem jOfPyEntries_nil : jOfPyEntries [] = [] := by
  rw [jOfPyEntries.eq_def]

theorem jOfPyEntries_cons (k v : PyVal) (es : List (PyVal × PyVal)) :
    jOfPyEntries ((k, v) :: es) = (jKeyStr k, jOfPy v) :: jOfPyEntries es := by
  rw [jOfPyEntries.eq_def]

theorem pyOfJson_null : pyOfJson .null = .none := by
  rw [pyOfJson.eq_def]

theorem pyOfJson_bool (b : Bool) : pyOfJson (.bool b) = .bool b := by
  rw [pyOfJson.eq_def]

theorem pyOfJson_num (n : Int) : pyOfJson (.num n) = .int n := by
  rw [pyOfJson.eq_def]

theorem pyOfJson_str (s : String) : pyOfJson (.str s) = .str s := by
  rw [pyOfJson.eq_def]

theorem pyOfJson_arr (xs : List JValue) :
    pyOfJson (.arr xs) = .list (pyOfJsonList xs) := by
  rw [pyOfJson.eq_def]

theorem pyOfJson_obj (ms : List (String × JValue)) :
    pyOfJson (.obj ms) = .dict (pyOfJsonMembers ms) := by
  rw [pyOfJson.eq_def]

theorem pyOfJsonList_nil : pyOfJsonList [] = [] := by
  rw [pyOfJsonList.eq_def]

theorem pyOfJsonList_cons (x : JValue) (xs : List JValue) :
    pyOfJsonList (x :: xs) = pyOfJson x :: pyOfJsonList xs := by
  rw [pyOfJsonList.eq_def]

theorem pyOfJsonMembers_nil : pyOfJsonMembers [] = [] := by
  rw [pyOfJsonMembers.eq_def]

theorem pyOfJsonMembers_cons (k : String) (v : JValue) (ms : List (String × JValue)) :
    pyOfJsonMembers ((k, v) :: ms) = (.str k, pyOfJson v) :: pyOfJsonMembers ms := by
  rw [pyOfJsonMembers.eq_def]

theorem pyEq_str_str (a b : String) : pyEq (.str a) (.str b) = (a == b) := by
  rw [pyEq.eq_def]

theorem pyEq_str_promise (a b : String) : pyEq (.str a) (.promise b) = (a == b) := by
  rw [pyEq.eq_def]

theorem pyEq_bool (a b : Bool) : pyEq (.bool a) (.bool b) = (a == b) := by
  rw [pyEq.eq_def]

theorem pyEq_int (a b : Int) : pyEq (.int a) (.int b) = (a == b) := by
  rw [pyEq.eq_def]

theorem pyEq_none : pyEq .none .none = true := by
  rw [pyEq.eq_def]

theorem pyEq_list (a b : List PyVal) : pyEq (.list a) (.list b) = pyEqList a b := by
  rw [pyEq.eq_def]

theorem pyEq_dict (a b : List (PyVal × PyVal)) :
    pyEq (.dict a) (.dict b) = pyEqEntries a b := by
  rw [pyEq.eq_def]

theorem pyEqList_nil : pyEqList [] [] = true := by
  rw [pyEqList.eq_def]

theorem pyEqList_cons (x y : PyVal) (xs ys : List PyVal) :
    pyEqList (x :: xs) (y :: ys) = (pyEq x y && pyEqList xs ys) := by
  rw [pyEqList.eq_def]

theorem pyEqEntries_nil : pyEqEntries [] [] = true := by
  rw [pyEqEntries.eq_def]

theorem pyEqEntries_cons (k1 v1 k2 v2 : PyVal) (xs ys : List (PyVal × PyVal)) :
    pyEqEntries ((k1, v1) :: xs) ((k2, v2) :: ys)
      = (pyEq k1 k2 && pyEq v1 v2 && pyEqEntries xs ys) := by
  rw [pyEqEntries.eq_def]

theorem wfPy_list (xs : List PyVal) : wfPy (.list xs) = wfPyList xs := by
  rw [wfPy.eq_def]

theorem wfPy_dict (es : List (PyVal × PyVal)) : wfPy (.dict es) = wfPyEntries es := by
  rw [wfPy.eq_def]

theorem wfPyList_cons (x : PyVal) (xs : List PyVal) :
    wfPyList (x :: xs) = (wfPy x && wfPyList xs) := by
  rw [wfPyList.eq_def]

theorem wfPyEntries_cons (k v : PyVal) (es : List (PyVal × PyVal)) :
    wfPyEntries ((k, v) :: es) = (isStr k && wfPy v && wfPyEntries es) := by
  rw [wfPyEntries.eq_def]


/-- Encoding with LazyEncoder succeeds on well-formed values and the decoded
result is Python-equal to the original (a lazy string comes back as its
realised text, which compares equal), by strong induction on size. -/
theorem py_json_strong : ∀ N : Nat,
    (∀ v : PyVal, sizeOf v ≤ N → wfPy v = true →
      pyToJson v = .ok (jOfPy v) ∧ pyEq (pyOfJson (jOfPy v)) v = true) ∧
    (∀ xs : List PyVal, sizeOf xs ≤ N → wfPyList xs = true →
      pyToJsonList xs = .ok (jOfPyList xs) ∧
        pyEqList (pyOfJsonList (jOfPyList xs)) xs = true) ∧
    (∀ es : List (PyVal × PyVal), sizeOf es ≤ N → wfPyEntries es = true →
      pyToJsonEntries es = .ok (jOfPyEntries es) ∧
        pyEqEntries (pyOfJsonMembers (jOfPyEntries es)) es = true) := by
  intro N
  induction N using Nat.strong_induction_on with
  | _ N ih =>
  refine ⟨?_, ?_, ?_⟩
  · intro v hsz hwf
    cases v with
    | str s =>
      refine ⟨by rw [pyToJson_str, jOfPy_str], ?_⟩
      rw [jOfPy_str, pyOfJson_str, pyEq_str_str]
      simp
    | promise s =>
      refine ⟨by rw [pyToJson_promise, jOfPy_promise], ?_⟩
      rw [jOfPy_promise, pyOfJson_str, pyEq_str_promise]
      simp
    | bool b =>
      refine ⟨by rw [pyToJson_bool, jOfPy_bool], ?_⟩
      rw [jOfPy_bool, pyOfJson_bool, pyEq_bool]
      simp
    | int n =>
      refine ⟨by rw [pyToJson_int, jOfPy_int], ?_⟩
      rw [jOfPy_int, pyOfJson_num, pyEq_int]
      simp
    | none =>
      refine ⟨by rw [pyToJson_none, jOfPy_none], ?_⟩
      rw [jOfPy_none, pyOfJson_null, pyEq_none]
    | list xs =>
      rw [wfPy_list] at hwf
      have hlt : sizeOf xs < N := by
        simp only [PyVal.list.sizeOf_spec] at hsz
        omega
      obtain ⟨he, hq⟩ := (ih _ hlt).2.1 xs (le_refl _) hwf
      refine ⟨?_, ?_⟩
      · rw [pyToJson_list, he, jOfPy_list]
        rfl
      · rw [jOfPy_list, pyOfJson_arr, pyEq_list]
        exact hq
    | dict es =>
      rw [wfPy_dict] at hwf
      have hlt : sizeOf es < N := by
        simp only [PyVal.dict.sizeOf_spec] at hsz
        omega
      obtain ⟨he, hq⟩ := (ih _ hlt).2.2 es (le_refl _) hwf
      refine ⟨?_, ?_⟩
      · rw [pyToJson_dict, he, jOfPy_dict]
        rfl
      · rw [jOfPy_dict, pyOfJson_obj, pyEq_dict]
        exact hq
  · intro xs hsz hwf
    cases xs with
    | nil =>
      refine ⟨by rw [pyToJsonList_nil, jOfPyList_nil], ?_⟩
      rw [jOfPyList_nil, pyOfJsonList_nil, pyEqList_nil]
    | cons x xs =>
      rw [wfPyList_cons, Bool.and_eq_true] at hwf
      obtain ⟨h1, h2⟩ := hwf
      have hltx : sizeOf x < N := by
        simp only [List.cons.sizeOf_spec] at hsz
        omega
      have hltxs : sizeOf xs < N := by
        simp only [List.cons.sizeOf_spec] at hsz
        have : 0 < sizeOf x := by
          cases x <;> simp
        omega
      obtain ⟨hex, hqx⟩ := (ih _ hltx).1 x (le_refl _) h1
      obtain ⟨hexs, hqxs⟩ := (ih _ hltxs).2.1 xs (le_refl _) h2
      refine ⟨?_, ?_⟩
      · rw [pyToJsonList_cons, hex, hexs, jOfPyList_cons]
        rfl
      · rw [jOfPyList_cons, pyOfJsonList_cons, pyEqList_cons, hqx, hqxs]
        rfl
  · intro es hsz hwf
    cases es with
    | nil =>
      refine ⟨by rw [pyToJsonEntries_nil, jOfPyEntries_nil], ?_⟩
      rw [jOfPyEntries_nil, pyOfJsonMembers_nil, pyEqEntries_nil]
    | cons e es =>
      obtain ⟨k, v⟩ := e
      rw [wfPyEntries_cons, Bool.and_eq_true, Bool.and_eq_true] at hwf
      obtain ⟨⟨hk, h1⟩, h2⟩ := hwf
      have hltv : sizeOf v < N := by
        simp only [List.cons.sizeOf_spec, Prod.mk.sizeOf_spec] at hsz
        omega
      have hltes : sizeOf es < N := by
        simp only [List.cons.sizeOf_spec, Prod.mk.sizeOf_spec] at hsz
        omega
      obtain ⟨hev, hqv⟩ := (ih _ hltv).1 v (le_refl _) h1
      obtain ⟨hees, hqes⟩ := (ih _ hltes).2.2 es (le_refl _) h2
      cases k with
      | str s =>
        refine ⟨?_, ?_⟩
        · rw [pyToJsonEntries_cons, hev, hees]
          rw [show jsonKey (.str s) = .ok s from rfl, jOfPyEntries_cons,
            show jKeyStr (.str s) = s from rfl]
          rfl
        · rw [jOfPyEntries_cons, pyOfJsonMembers_cons, pyEqEntries_cons,
            show jKeyStr (.str s) = s from rfl, pyEq_str_str, hqv, hqes]
          simp
      | promise s => simp [isStr] at hk
      | bool b => simp [isStr] at hk
      | int n => simp [isStr] at hk
      | none => simp [isStr] at hk
      | list l => simp [isStr] at hk
      | dict d => simp [isStr] at hk

/-- Encoding a well-formed value with LazyEncoder succeeds. -/
theorem pyToJson_wf (v : PyVal) (h : wfPy v = true) : pyToJson v = .ok (jOfPy v) :=
  ((py_json_strong (sizeOf v)).1 v (le_refl _) h).1

/-- Decoding the encoding of a well-formed value gives a Python-equal
value. -/
theorem pyOfJson_jOfPy (v : PyVal) (h : wfPy v = true) :
    pyEq (pyOfJson (jOfPy v)) v = true :=
  ((py_json_strong (sizeOf v)).1 v (le_refl _) h).2

/-- Model of the full json.dumps / json.loads cycle on a well-formed Python
value: dumps succeeds and loads of its output is Python-equal to the
original value. -/
theorem dumps_loads_roundtrip (v : PyVal) (h : wfPy v = true) :
    dumps v = .ok (String.mk (printVal (jOfPy v)))
      ∧ parseJ (String.mk (printVal (jOfPy v))) = some (jOfPy v)
      ∧ pyEq (pyOfJson (jOfPy v)) v = true := by
  refine ⟨?_, parseJ_print (jOfPy v), pyOfJson_jOfPy v h⟩
  unfold dumps
  rw [pyToJson_wf v h]
  rfl


/-! Framework object model: serializers, fields, viewset classes, routers and
URL patterns, holding exactly the attributes api_endpoint.py reads. -/

/-- Python exceptions distinguished by the module: __get_serializer__ catches
KeyError only; json.dumps raises TypeError on unencodable values; unpacking
an empty zip raises ValueError. -/
inductive PyError where
  | keyError (msg : String)
  | typeError (msg : String)
  | valueError (msg : String)
deriving DecidableEq, Repr

/-- Serializer Meta block: the declared read_only_fields list
(getattr default None) and the extra_kwargs mapping of per-field keyword
overrides (getattr default empty dict, which an empty list models). -/
structure MetaBlock where
  read_only_fields : Option (List String)
  extra_kwargs : List (String × List (String × PyVal))

mutual

/-- Serializer instance: whether it exposes get_fields (hasattr check in
__get_serializer_fields__), the get_fields().items() sequence, and the
optional Meta block. -/
inductive Serializer where
  | mk (hasGetFields : Bool) (fields : List (String × Field)) (meta : Option MetaBlock) :
      Serializer

/-- Serializer field: class name (str(field.__class__.__name__)), whether it
is a PrimaryKeyRelatedField, str(field.queryset.model) and the queryset's
row contents (never read by the module), hasattr(field, 'many'),
isinstance(field, BaseSerializer), the field itself viewed as a serializer
(meaningful when it is a BaseSerializer), field.child viewed as a serializer
(meaningful for many-relations), field.required, field.help_text, and the
optional choices attribute (hasattr(field, 'choices') with its value). -/
inductive Field where
  | mk (className : String) (isPrimaryKeyRelated : Bool) (querysetModel : String)
      (querysetContents : List String) (hasMany : Bool) (isBaseSerializer : Bool)
      (selfSer : Serializer) (childSer : Serializer) (required : Bool)
      (help_text : PyVal) (choices : Option PyVal) : Field

end

/-- The same field with different queryset contents (used to state that
choice reporting is independent of the referenced table's rows). -/
def Field.withQuerysetContents : Field → List String → Field
  | .mk cn pk qm _ many isBase s c req ht ch, qc =>
    .mk cn pk qm qc many isBase s c req ht ch

/-- Python dict getitem by == on the keys (the key is always present where
the module uses this; the default is unreachable). -/
def pyDictGet (entries : List (PyVal × PyVal)) (k : PyVal) : PyVal :=
  ((entries.find? (fun e => pyEq e.1 k)).map Prod.snd).getD .none

/-- One step of Python dict construction from a pair list: a later pair with
an ==-equal key overwrites the value in place, otherwise the pair is
appended. -/
def pyDictInsert (acc : List (PyVal × PyVal)) (kv : PyVal × PyVal) :
    List (PyVal × PyVal) :=
  if acc.any (fun e => pyEq e.1 kv.1) then
    acc.map (fun e => if pyEq e.1 kv.1 then (e.1, kv.2) else e)
  else acc ++ [kv]

/-- Python dict(pairs). -/
def pyDictOfList (pairs : List (PyVal × PyVal)) : List (PyVal × PyVal) :=
  pairs.foldl pyDictInsert []

/-- Model of ApiEndpoint.__get_field_choices: a related field reports a
one-element list naming the related model; a choices attribute that is a
dict with a non-str key is re-keyed through str; otherwise the choices
value is returned as-is; a field with no choices attribute reports None. -/
def get_field_choices : Field → PyVal
  | .mk _ pk qm _ _ _ _ _ _ _ ch =>
    if pk then .list [.str ("Related field " ++ qm)]
    else
      match ch with
      | Option.none => .none
      | some v =>
        match v with
        | .dict entries =>
          if !(entries.all (fun e => isStr e.1)) then
            .dict (pyDictOfList (entries.map (fun e => (.str (pyStr e.1), pyDictGet entries e.1))))
          else v
        | _ => v

mutual

/-- Model of ApiEndpoint.__get_serializer_fields__ on a serializer object:
empty unless it exposes get_fields, otherwise one entry dict per field. -/
def serializerFields : Serializer → List PyVal
  | .mk hasGetFields fields _ =>
    if hasGetFields then fieldEntries fields else []

/-- Entry dicts for the fields of a serializer, in declaration order. -/
def fieldEntries : List (String × Field) → List PyVal
  | [] => []
  | (key, f) :: rest => fieldEntry key f :: fieldEntries rest

/-- The entry dict recorded for one field: name, type, sub_fields (recursing
into the field itself or its child when it is a nested serializer), required,
to_many_relation, help_text (or ''), and choices. -/
def fieldEntry (key : String) : Field → PyVal
  | .mk cn pk qm qc many isBase selfS childS req ht ch =>
    let subFields : PyVal :=
      if many then (if isBase then .list (serializerFields childS) else .none)
      else (if isBase then .list (serializerFields selfS) else .none)
    .dict [(.str "name", .str key),
           (.str "type", .str cn),
           (.str "sub_fields", subFields),
           (.str "required", .bool req),
           (.str "to_many_relation", .bool many),
           (.str "help_text", pyOr ht (.str "")),
           (.str "choices", get_field_choices (.mk cn pk qm qc many isBase selfS childS req ht ch))]

end

/-- ApiEndpoint.__get_serializer_fields__ as called from __init__, where the
serializer may be None after a caught instantiation error
(hasattr(None, 'get_fields') is false, so the field list is empty). -/
def get_serializer_fields (ser : Option Serializer) : List PyVal :=
  match ser with
  | Option.none => []
  | some s => serializerFields s

/-- Model of ApiEndpoint.__get_serializer_fields_json__:
json.dumps(self.fields, cls=LazyEncoder). -/
def get_serializer_fields_json (fields : List PyVal) : Except String String :=
  dumps (.list fields)

/-- Model of ApiEndpoint.__get_serializer_read_only_fields__: the Meta
block's read_only_fields when a Meta block exists, otherwise None (both for
a serializer without Meta and for a None serializer). -/
def get_serializer_read_only_fields (ser : Option Serializer) : Option (List String) :=
  match ser with
  | Option.none => Option.none
  | some (.mk _ _ meta) =>
    match meta with
    | Option.none => Option.none
    | some m => m.read_only_fields

/-- Model of ApiEndpoint.__get_serializer_write_only_fields__: when a Meta
block exists, the names whose extra_kwargs override contains the
'write_only' key (the membership test 'write_only' in value checks key
presence, not the key's value); otherwise None. -/
def get_serializer_write_only_fields (ser : Option Serializer) : Option (List String) :=
  match ser with
  | Option.none => Option.none
  | some (.mk _ _ meta) =>
    match meta with
    | Option.none => Option.none
    | some m =>
      some (m.extra_kwargs.filterMap
        (fun e => if e.2.any (fun p => p.1 == "write_only") then some e.1 else Option.none))

/-- Serializer class object: calling it with no arguments either returns a
serializer instance or raises. -/
structure SerializerClass where
  instantiate : Except PyError Serializer

/-- Model of ApiEndpoint.__get_serializer__ together with its effect on
self.errors: a KeyError from instantiation is caught and stored (the method
then returns None); any other exception propagates out of __init__. -/
def get_serializer (sc : SerializerClass) :
    Except PyError (Option Serializer × Option PyError) :=
  match sc.instantiate with
  | .ok s => .ok (some s, Option.none)
  | .error (.keyError m) => .ok (Option.none, some (.keyError m))
  | .error e => .error e

/-- Viewset / view class as the module reads it: an identity for the
class-equality test against the router registry, http_method_names, the
attribute names it exposes (hasattr), getattr on action names as a function
identity, inspect.getdoc per function identity, whether it is a ModelViewSet
subclass, the serializer_class attribute, the result of the
get_serializer_class factory when that attribute exists, and the
permission_classes list (class names). -/
structure ViewSetCls where
  id : Nat
  http_method_names : List String
  attrs : List String
  actionFunc : String → Nat
  funcDoc : Nat → Option String
  isModelViewSet : Bool
  serializer_class : Option SerializerClass
  get_serializer_class_attr : Option SerializerClass
  permission_classes : List String

/-- Python hasattr on the modelled class. -/
def hasattrB (cls : ViewSetCls) (attr : String) : Bool := cls.attrs.contains attr

/-- The VIEWSET_METHODS table from the top of api_endpoint.py. -/
def VIEWSET_METHODS : List (String × List String) :=
  [("List", ["get", "post"]), ("Instance", ["get", "put", "patch", "delete"])]

/-- Python dict.get(key, default) where the key may be None
(self.callback.suffix is None for non-router views). -/
def viewsetMethodsGet (suffix : Option String) : List String :=
  match suffix with
  | Option.none => []
  | some s => ((VIEWSET_METHODS.find? (fun e => e.1 == s)).map (fun e => e.2)).getD []

/-- Model of ApiEndpoint.is_method_allowed. -/
def is_method_allowed (suffix : Option String) (callback_cls : ViewSetCls)
    (method_name : String) : Bool :=
  let has_attr := hasattrB callback_cls method_name
  let viewset_method :=
    callback_cls.isModelViewSet && (viewsetMethodsGet suffix).contains method_name
  has_attr || viewset_method

/-- A route from drf_router.get_routes: the url template (with prefix,
lookup and trailing_slash fields) and the method-to-action mapping. -/
structure Route where
  url : String
  mapping : List (String × String)

/-- Router object: registry of (prefix, viewset, basename), the lookup regex
and route list per viewset (keyed by class identity), and the trailing-slash
convention string. -/
structure Router where
  registry : List (String × ViewSetCls × String)
  lookupOf : Nat → String
  routesOf : Nat → List Route
  trailing_slash : String

/-- Model of drf_router.get_method_map(viewset, route.mapping): only actions
which actually exist on the viewset are bound. -/
def get_method_map (vs : ViewSetCls) (method_map : List (String × String)) :
    List (String × String) :=
  method_map.filter (fun p => hasattrB vs p.2)

/-- Substitution of one named format field of a DRF route template. -/
def formatSubst (s : String) (pre lookup trailing : String) : Option String :=
  if s = "prefix" then some pre
  else if s = "lookup" then some lookup
  else if s = "trailing_slash" then some trailing
  else Option.none

/-- Scanner for str.format over a route template: outside braces characters
are copied; inside braces the field name is collected and substituted.  DRF
templates only use the three known field names with plain braces; an unknown
or unclosed field is reproduced verbatim instead of raising. -/
def formatUrlGo (pre lookup trailing : String) : List Char → Option (List Char) → List Char
  | [], Option.none => []
  | [], some acc => ocurl :: acc.reverse
  | c :: cs, Option.none =>
    if c = ocurl then formatUrlGo pre lookup trailing cs (some [])
    else c :: formatUrlGo pre lookup trailing cs Option.none
  | c :: cs, some acc =>
    if c = ccurl then
      (match formatSubst (String.mk acc.reverse) pre lookup trailing with
       | some v => v.data
       | Option.none => ocurl :: (acc.reverse ++ [ccurl]))
        ++ formatUrlGo pre lookup trailing cs Option.none
    else formatUrlGo pre lookup trailing cs (some (c :: acc))

/-- Model of route.url.format(prefix=..., lookup=...,
trailing_slash=...). -/
def formatUrl (template pre lookup trailing : String) : String :=
  String.mk (formatUrlGo pre lookup trailing template.data Option.none)

/-- The url pattern handed to ApiEndpoint: pattern.regex.pattern, the
handling class pattern.callback.cls, the view suffix pattern.callback.suffix
('List' / 'Instance' on router-generated views), and
inspect.getdoc(pattern.callback). -/
structure UrlPattern where
  regexPattern : String
  callbackCls : ViewSetCls
  suffix : Option String
  callbackDoc : Option String

/-- The zip comprehension of lines 85-89: for each name in
http_method_names bound in the mapping, the pair (mapping[m], m.upper()). -/
def boundPairs (cls : ViewSetCls) (mapping : List (String × String)) :
    List (String × String) :=
  cls.http_method_names.filterMap
    (fun m => ((mapping.find? (fun p => p.1 == m)).map Prod.snd).map
      (fun a => (a, pyUpper m)))

/-- One iteration of the inner route loop of __get_allowed_methods__,
threading the (viewset_methods, docstring) state: an empty bound mapping is
skipped; a reconstructed url equal to the endpoint's pattern overwrites
viewset_methods with the bound methods uppercased and, when all bound
actions are one single action, overwrites the docstring with that action
function's doc; unpacking an empty zip raises ValueError. -/
def routeStep (ep : UrlPattern) (router : Router) (pre : String) (vs : ViewSetCls)
    (st : List String × Option String) (route : Route) :
    Except PyError (List String × Option String) :=
  let mapping := get_method_map vs route.mapping
  if mapping.isEmpty then .ok st
  else
    let regex := formatUrl route.url pre (router.lookupOf vs.id) router.trailing_slash
    if ep.regexPattern = regex then
      match boundPairs ep.callbackCls mapping with
      | [] => .error (.valueError "not enough values to unpack")
      | (f0, m0) :: rest =>
        let funcs := f0 :: rest.map Prod.fst
        let methods := m0 :: rest.map Prod.snd
        let doc :=
          if funcs.all (fun f => f == f0) then
            ep.callbackCls.funcDoc (ep.callbackCls.actionFunc f0)
          else st.2
        .ok (methods, doc)
    else .ok st

/-- One iteration of the registry loop of __get_allowed_methods__: entries
whose viewset is not the endpoint's handling class are skipped. -/
def registryStep (ep : UrlPattern) (router : Router)
    (st : List String × Option String) (entry : String × ViewSetCls × String) :
    Except PyError (List String × Option String) :=
  let (pre, vs, _) := entry
  if ep.callbackCls.id = vs.id then
    (router.routesOf vs.id).foldlM (routeStep ep router pre vs) st
  else .ok st

/-- The direct capability check of lines 94-96: every http method name that
is_method_allowed accepts, uppercased (force_str on a str is the
identity). -/
def view_methods (ep : UrlPattern) : List String :=
  ep.callbackCls.http_method_names.filterMap
    (fun m => if is_method_allowed ep.suffix ep.callbackCls m then some (pyUpper m)
      else Option.none)

/-- Model of ApiEndpoint.__get_allowed_methods__ together with its effect on
self.docstring: returns sorted(viewset_methods + view_methods) and the
docstring value after the router walk (the docstring starts as
inspect.getdoc(self.callback), set by __init__ beforehand). -/
def get_allowed_methods (ep : UrlPattern) (drf_router : Option Router) :
    Except PyError (List String × Option String) := do
  let st ← match drf_router with
    | Option.none => pure (([] : List String), ep.callbackDoc)
    | some router => router.registry.foldlM (registryStep ep router) ([], ep.callbackDoc)
  pure (pySorted (st.1 ++ view_methods ep), st.2)

/-- Model of ApiEndpoint.__get_serializer_class__: the serializer_class
attribute when present, else the get_serializer_class factory result when
that attribute is present, else None. -/
def get_serializer_class (cls : ViewSetCls) : Option SerializerClass :=
  match cls.serializer_class with
  | some sc => some sc
  | Option.none => cls.get_serializer_class_attr

/-- Model of ApiEndpoint.__get_permissions_class__: the name of the first
declared permission class, or None when none is declared. -/
def get_permissions_class (cls : ViewSetCls) : Option String :=
  cls.permission_classes.head?

/-- The constructed endpoint descriptor.  Attributes that __init__ assigns
only inside the serializer branch are Options whose none means the attribute
was never set.  Path resolution (simplify_regex on the pattern) is outside
the embedded scope; no claim concerns it. -/
structure ApiEndpoint where
  docstring : Option String
  allowed_methods : List String
  errors : Option PyError
  serializer_class : Option SerializerClass
  serializer : Option (Option Serializer)
  fields : Option (List PyVal)
  fields_json : Option String
  read_only_fields : Option (Option (List String))
  write_only_fields : Option (Option (List String))
  permissions : Option String

/-- Model of ApiEndpoint.__init__ (the attributes the claims concern):
docstring, allowed methods (with the docstring override from the router
walk), errors, the serializer branch (entered only when a serializer class
resolved), and the permission name.  Any uncaught exception propagates. -/
def mkApiEndpoint (p : UrlPattern) (drf_router : Option Router) :
    Except PyError ApiEndpoint := do
  let (allowed, doc) ← get_allowed_methods p drf_router
  match get_serializer_class p.callbackCls with
  | some sc => do
    let se ← get_serializer sc
    let flds := get_serializer_fields se.1
    let fjson ← (get_serializer_fields_json flds).mapError PyError.typeError
    pure { docstring := doc, allowed_methods := allowed, errors := se.2,
           serializer_class := some sc, serializer := some se.1,
           fields := some flds, fields_json := some fjson,
           read_only_fields := some (get_serializer_read_only_fields se.1),
           write_only_fields := some (get_serializer_write_only_fields se.1),
           permissions := get_permissions_class p.callbackCls }
  | Option.none =>
    pure { docstring := doc, allowed_methods := allowed, errors := Option.none,
           serializer_class := Option.none, serializer := Option.none,
           fields := Option.none, fields_json := Option.none,
           read_only_fields := Option.none, write_only_fields := Option.none,
           permissions := get_permissions_class p.callbackCls }


theorem except_bind_ok {ε α β : Type} {e : Except ε α} {f : α → Except ε β} {b : β}
    (h : (e >>= f) = .ok b) : ∃ a, e = .ok a ∧ f a = .ok b := by
  cases e with
  | error err => simp [Bind.bind, Except.bind] at h
  | ok a => exact ⟨a, rfl, by simpa [Bind.bind, Except.bind] using h⟩

/-- The (viewset_methods, docstring) state after the router walk: the
initial state for no router, otherwise the registry fold. -/
def routerState (ep : UrlPattern) (r : Option Router) :
    Except PyError (List String × Option String) :=
  match r with
  | Option.none => .ok ([], ep.callbackDoc)
  | some router => router.registry.foldlM (registryStep ep router) ([], ep.callbackDoc)

theorem get_allowed_methods_eq (ep : UrlPattern) (r : Option Router) :
    get_allowed_methods ep r
      = (routerState ep r).map (fun st => (pySorted (st.1 ++ view_methods ep), st.2)) := by
  cases r with
  | none => rfl
  | some router =>
    show (router.registry.foldlM (registryStep ep router) ([], ep.callbackDoc)
        >>= fun st => pure (pySorted (st.1 ++ view_methods ep), st.2))
      = (router.registry.foldlM (registryStep ep router) ([], ep.callbackDoc)).map _
    cases router.registry.foldlM (registryStep ep router) ([], ep.callbackDoc) with
    | error e => rfl
    | ok st => rfl

theorem get_allowed_methods_ok {ep : UrlPattern} {r : Option Router}
    {ms : List String} {d : Option String}
    (h : get_allowed_methods ep r = .ok (ms, d)) :
    ∃ st : List String × Option String, routerState ep r = .ok st ∧
      ms = pySorted (st.1 ++ view_methods ep) ∧ d = st.2 := by
  rw [get_allowed_methods_eq] at h
  cases hst : routerState ep r with
  | error e => rw [hst] at h; simp [Except.map] at h
  | ok st =>
    rw [hst] at h
    simp only [Except.map, Except.ok.injEq, Prod.mk.injEq] at h
    exact ⟨st, rfl, h.1.symm, h.2.symm⟩


/-- Characterization of the router walk when the registry has exactly one
entry for the endpoint's class and the last route matches: the state is the
last matching route's uppercased bound methods, and the docstring override
applies only when all bound actions are one single action name. -/
theorem routerState_single (ep : UrlPattern) (router : Router) (pre bn : String)
    (vs : ViewSetCls) (rs : List Route) (r : Route) (st : List String × Option String)
    (f0 m0 : String) (rest : List (String × String))
    (hreg : router.registry = [(pre, vs, bn)])
    (hid : ep.callbackCls.id = vs.id)
    (hroutes : router.routesOf vs.id = rs ++ [r])
    (hfold : rs.foldlM (routeStep ep router pre vs) ([], ep.callbackDoc) = .ok st)
    (hmap : (get_method_map vs r.mapping).isEmpty = false)
    (hmatch : ep.regexPattern
      = formatUrl r.url pre (router.lookupOf vs.id) router.trailing_slash)
    (hbp : boundPairs ep.callbackCls (get_method_map vs r.mapping) = (f0, m0) :: rest) :
    routerState ep (some router)
      = .ok (m0 :: rest.map Prod.snd,
          if (f0 :: rest.map Prod.fst).all (fun f => f == f0) then
            ep.callbackCls.funcDoc (ep.callbackCls.actionFunc f0)
          else st.2) := by
  have hstep : routeStep ep router pre vs st r
      = .ok (m0 :: rest.map Prod.snd,
          if (f0 :: rest.map Prod.fst).all (fun f => f == f0) then
            ep.callbackCls.funcDoc (ep.callbackCls.actionFunc f0)
          else st.2) := by
    unfold routeStep
    simp only [hmap, Bool.false_eq_true, if_false, hmatch, eq_self_iff_true, if_true, hbp]
  show router.registry.foldlM (registryStep ep router) ([], ep.callbackDoc) = _
  rw [hreg]
  simp only [List.foldlM_cons, List.foldlM_nil, registryStep, hid, eq_self_iff_true,
    if_true]
  rw [hroutes, List.foldlM_append, hfold]
  simp only [List.foldlM_cons, List.foldlM_nil, Bind.bind, Except.bind, hstep]
  rfl


/-! Claim C1: allowed methods from router table and direct capability
check. -/

/-- A ModelViewSet-like class with the list and create actions, registered
in a router; its List endpoint. -/
def c1vs : ViewSetCls :=
  { id := 0
    http_method_names := ["get", "post", "put", "patch", "delete", "head", "options", "trace"]
    attrs := ["list", "create"]
    actionFunc := fun a => if a = "list" then 0 else if a = "create" then 1 else 99
    funcDoc := fun n => if n = 0 then some "List docs"
      else if n = 1 then some "Create docs" else Option.none
    isModelViewSet := true
    serializer_class := Option.none
    get_serializer_class_attr := Option.none
    permission_classes := ["AllowAny"] }

/-- The list route of the default router for c1vs. -/
def c1route : Route :=
  { url := "^\x7bprefix\x7d\x7btrailing_slash\x7d$"
    mapping := [("get", "list"), ("post", "create")] }

/-- Router with c1vs registered under the items prefix. -/
def c1router : Router :=
  { registry := [("items", c1vs, "item")]
    lookupOf := fun _ => "(?P<pk>[^/.]+)"
    routesOf := fun _ => [c1route]
    trailing_slash := "/" }

/-- The list url pattern the router generates for c1vs. -/
def c1ep : UrlPattern :=
  { regexPattern := "^items/$", callbackCls := c1vs, suffix := some "List"
    callbackDoc := some "orig" }

/-- Counterexample to C1 as stated: a ModelViewSet List endpoint matched by
its router route gets GET and POST from the router table and again from the
viewset-method capability check, and the result keeps both copies — the
claimed de-duplication (no method name appears twice) does not happen. -/
theorem c1_duplicates_counterexample :
    get_allowed_methods c1ep (some c1router)
        = .ok (["GET", "GET", "POST", "POST"], some "orig")
      ∧ ¬ (["GET", "GET", "POST", "POST"] : List String).Nodup :=
  ⟨rfl, by decide⟩

/-- C1 as amended: with one registry entry for the endpoint's class and one
matching route, the allowed-methods result is sorted ascending and counts
each method once per source — the router-derived methods and the direct
capability-check methods are concatenated, not de-duplicated. -/
theorem c1_sorted_concatenation (ep : UrlPattern) (router : Router) (pre bn : String)
    (vs : ViewSetCls) (r : Route) (f0 m0 : String) (rest : List (String × String))
    (ms : List String) (d : Option String)
    (hreg : router.registry = [(pre, vs, bn)])
    (hid : ep.callbackCls.id = vs.id)
    (hroutes : router.routesOf vs.id = [r])
    (hmap : (get_method_map vs r.mapping).isEmpty = false)
    (hmatch : ep.regexPattern
      = formatUrl r.url pre (router.lookupOf vs.id) router.trailing_slash)
    (hbp : boundPairs ep.callbackCls (get_method_map vs r.mapping) = (f0, m0) :: rest)
    (hok : get_allowed_methods ep (some router) = .ok (ms, d)) :
    List.Sorted strLe ms ∧
    ∀ m : String,
      ms.count m
        = ((boundPairs ep.callbackCls (get_method_map vs r.mapping)).map Prod.snd).count m
          + (view_methods ep).count m := by
  obtain ⟨st, hst, hms, _⟩ := get_allowed_methods_ok hok
  rw [routerState_single ep router pre bn vs [] r ([], ep.callbackDoc) f0 m0 rest hreg hid
    hroutes rfl hmap hmatch hbp] at hst
  injection hst with h
  subst hms
  refine ⟨pySorted_sorted _, ?_⟩
  intro m
  rw [count_pySorted, List.count_append, hbp, ← h]
  simp

/-- Witness for c1_sorted_concatenation at the concrete router endpoint. -/
theorem c1_witness :
    List.Sorted strLe ["GET", "GET", "POST", "POST"] ∧
    ∀ m : String,
      (["GET", "GET", "POST", "POST"] : List String).count m
        = ((boundPairs c1ep.callbackCls (get_method_map c1vs c1route.mapping)).map
            Prod.snd).count m
          + (view_methods c1ep).count m :=
  c1_sorted_concatenation c1ep c1router "items" "item" c1vs c1route
    "list" "GET" [("create", "POST")]
    ["GET", "GET", "POST", "POST"] (some "orig") rfl rfl rfl rfl rfl rfl rfl

/-! Claim C2: docstring adoption from the matched route's bound actions. -/

/-- A class where two distinct action names are bound to the same underlying
function (an alias assignment), with a shared doc. -/
def c2vs : ViewSetCls :=
  { id := 0
    http_method_names := ["get", "post", "put", "patch", "delete", "head", "options", "trace"]
    attrs := ["retrieve", "retrieve_alias"]
    actionFunc := fun _ => 5
    funcDoc := fun n => if n = 5 then some "Shared doc" else Option.none
    isModelViewSet := true
    serializer_class := Option.none
    get_serializer_class_attr := Option.none
    permission_classes := [] }

/-- Route binding get and post to the two aliased action names. -/
def c2route : Route :=
  { url := "^\x7bprefix\x7d\x7btrailing_slash\x7d$"
    mapping := [("get", "retrieve"), ("post", "retrieve_alias")] }

/-- Router with c2vs registered. -/
def c2router : Router :=
  { registry := [("items", c2vs, "item")]
    lookupOf := fun _ => "lk"
    routesOf := fun _ => [c2route]
    trailing_slash := "/" }

/-- The matched pattern for c2vs. -/
def c2ep : UrlPattern :=
  { regexPattern := "^items/$", callbackCls := c2vs, suffix := some "List"
    callbackDoc := some "orig" }

/-- Counterexample to C2 as stated: both bound methods resolve to the same
underlying function (identity 5, documented "Shared doc"), yet the endpoint
docstring stays "orig" — the code compares bound action names, not the
functions they resolve to, so the claimed override does not happen. -/
theorem c2_alias_counterexample :
    get_allowed_methods c2ep (some c2router)
        = .ok (["GET", "GET", "POST", "POST"], some "orig")
      ∧ c2vs.actionFunc "retrieve" = c2vs.actionFunc "retrieve_alias"
      ∧ c2vs.funcDoc (c2vs.actionFunc "retrieve") = some "Shared doc"
      ∧ c2ep.callbackDoc = some "orig"
      ∧ ("orig" : String) ≠ "Shared doc" :=
  ⟨rfl, rfl, rfl, rfl, by decide⟩

/-- C2 as amended: on a matched route, if all bound HTTP methods map to one
single action name the docstring becomes that action's function doc
(overriding the handler's own); if two or more distinct action names are
bound the docstring is left unchanged — even when those names alias the same
underlying function. -/
theorem c2_action_name_docstring (ep : UrlPattern) (router : Router) (pre bn : String)
    (vs : ViewSetCls) (r : Route) (f0 m0 : String) (rest : List (String × String))
    (ms : List String) (d : Option String)
    (hreg : router.registry = [(pre, vs, bn)])
    (hid : ep.callbackCls.id = vs.id)
    (hroutes : router.routesOf vs.id = [r])
    (hmap : (get_method_map vs r.mapping).isEmpty = false)
    (hmatch : ep.regexPattern
      = formatUrl r.url pre (router.lookupOf vs.id) router.trailing_slash)
    (hbp : boundPairs ep.callbackCls (get_method_map vs r.mapping) = (f0, m0) :: rest)
    (hok : get_allowed_methods ep (some router) = .ok (ms, d)) :
    ((f0 :: rest.map Prod.fst).all (fun f => f == f0) = true →
      d = ep.callbackCls.funcDoc (ep.callbackCls.actionFunc f0)) ∧
    ((f0 :: rest.map Prod.fst).all (fun f => f == f0) = false →
      d = ep.callbackDoc) := by
  obtain ⟨st, hst, _, hd⟩ := get_allowed_methods_ok hok
  rw [routerState_single ep router pre bn vs [] r ([], ep.callbackDoc) f0 m0 rest hreg hid
    hroutes rfl hmap hmatch hbp] at hst
  injection hst with h
  subst hd
  rw [← h]
  constructor
  · intro hall
    simp [hall]
  · intro hall
    simp [hall]

/-- Class for the witness of the amended C2: one action bound to both
methods. -/
def c2wvs : ViewSetCls :=
  { id := 0
    http_method_names := ["get", "post", "put", "patch", "delete", "head", "options", "trace"]
    attrs := ["retrieve"]
    actionFunc := fun a => if a = "retrieve" then 5 else 9
    funcDoc := fun n => if n = 5 then some "Shared doc" else Option.none
    isModelViewSet := true
    serializer_class := Option.none
    get_serializer_class_attr := Option.none
    permission_classes := [] }

/-- Route binding get and post to the same action. -/
def c2wroute : Route :=
  { url := "^\x7bprefix\x7d\x7btrailing_slash\x7d$"
    mapping := [("get", "retrieve"), ("post", "retrieve")] }

/-- Router for the witness class. -/
def c2wrouter : Router :=
  { registry := [("items", c2wvs, "item")]
    lookupOf := fun _ => "lk"
    routesOf := fun _ => [c2wroute]
    trailing_slash := "/" }

/-- The matched pattern for the witness class. -/
def c2wep : UrlPattern :=
  { regexPattern := "^items/$", callbackCls := c2wvs, suffix := some "List"
    callbackDoc := some "orig" }

theorem c2_witness :
    (("retrieve" :: ([("retrieve", "POST")] : List (String × String)).map Prod.fst).all
        (fun f => f == "retrieve") = true →
      some "Shared doc" = c2wep.callbackCls.funcDoc (c2wep.callbackCls.actionFunc "retrieve")) ∧
    (("retrieve" :: ([("retrieve", "POST")] : List (String × String)).map Prod.fst).all
        (fun f => f == "retrieve") = false →
      some "Shared doc" = c2wep.callbackDoc) :=
  c2_action_name_docstring c2wep c2wrouter "items" "item" c2wvs c2wroute
    "retrieve" "GET" [("retrieve", "POST")]
    ["GET", "GET", "POST", "POST"] (some "Shared doc") rfl rfl rfl rfl rfl rfl rfl

/-! Claim C10: overwrite behaviour across multiple matching routes. -/

/-- A class with a documented action a and two undocumented actions x, y. -/
def c10vs : ViewSetCls :=
  { id := 0
    http_method_names := ["get", "post", "put", "patch", "delete", "head", "options", "trace"]
    attrs := ["a", "x", "y"]
    actionFunc := fun s => if s = "a" then 0 else if s = "x" then 1 else 2
    funcDoc := fun n => if n = 0 then some "docA" else Option.none
    isModelViewSet := true
    serializer_class := Option.none
    get_serializer_class_attr := Option.none
    permission_classes := [] }

/-- First matching route: single action a (sets the docstring). -/
def c10r1 : Route :=
  { url := "^\x7bprefix\x7d\x7btrailing_slash\x7d$", mapping := [("get", "a")] }

/-- Second matching route: two distinct actions x and y (no docstring
override). -/
def c10r2 : Route :=
  { url := "^\x7bprefix\x7d\x7btrailing_slash\x7d$"
    mapping := [("get", "x"), ("post", "y")] }

/-- Router whose two routes both reconstruct to the endpoint's pattern. -/
def c10router : Router :=
  { registry := [("items", c10vs, "item")]
    lookupOf := fun _ => "lk"
    routesOf := fun _ => [c10r1, c10r2]
    trailing_slash := "/" }

/-- The endpoint pattern both routes match (suffix None keeps the direct
capability check empty). -/
def c10ep : UrlPattern :=
  { regexPattern := "^items/$", callbackCls := c10vs, suffix := Option.none
    callbackDoc := some "orig" }

/-- Counterexample to C10 as stated: with two matching routes, the methods
do come from the last route only (GET and POST from x and y), but the final
docstring "docA" is the first matching route's override — the last route's
actions are undocumented and leave the docstring alone, so not only the last
matching route's mapping contributes to the result. -/
theorem c10_stale_docstring_counterexample :
    get_allowed_methods c10ep (some c10router) = .ok (["GET", "POST"], some "docA")
      ∧ c10vs.funcDoc (c10vs.actionFunc "a") = some "docA"
      ∧ c10r2.mapping = [("get", "x"), ("post", "y")]
      ∧ c10vs.funcDoc (c10vs.actionFunc "x") = Option.none
      ∧ c10vs.funcDoc (c10vs.actionFunc "y") = Option.none
      ∧ c10ep.callbackDoc = some "orig" :=
  ⟨rfl, rfl, rfl, rfl, rfl, rfl⟩

/-- C10 as amended: each successive match overwrites the router-derived
methods, so the allowed methods are computed from the last matching route's
mapping alone, whatever earlier routes produced; the docstring, by contrast,
is overwritten only by a match whose bound actions are one single action
name, so an earlier match's override can survive. -/
theorem c10_last_match_methods (ep : UrlPattern) (router : Router) (pre bn : String)
    (vs : ViewSetCls) (rs : List Route) (r : Route) (st : List String × Option String)
    (f0 m0 : String) (rest : List (String × String))
    (ms : List String) (d : Option String)
    (hreg : router.registry = [(pre, vs, bn)])
    (hid : ep.callbackCls.id = vs.id)
    (hroutes : router.routesOf vs.id = rs ++ [r])
    (hfold : rs.foldlM (routeStep ep router pre vs) ([], ep.callbackDoc) = .ok st)
    (hmap : (get_method_map vs r.mapping).isEmpty = false)
    (hmatch : ep.regexPattern
      = formatUrl r.url pre (router.lookupOf vs.id) router.trailing_slash)
    (hbp : boundPairs ep.callbackCls (get_method_map vs r.mapping) = (f0, m0) :: rest)
    (hok : get_allowed_methods ep (some router) = .ok (ms, d)) :
    ms = pySorted (((boundPairs ep.callbackCls (get_method_map vs r.mapping)).map
        Prod.snd) ++ view_methods ep)
      ∧ ((f0 :: rest.map Prod.fst).all (fun f => f == f0) = false → d = st.2) := by
  obtain ⟨st', hst, hms, hd⟩ := get_allowed_methods_ok hok
  rw [routerState_single ep router pre bn vs rs r st f0 m0 rest hreg hid
    hroutes hfold hmap hmatch hbp] at hst
  injection hst with h
  subst hms hd
  rw [← h, hbp]
  constructor
  · rfl
  · intro hall
    simp [hall]

/-- Witness for c10_last_match_methods at the two-route endpoint. -/
theorem c10_witness :
    (["GET", "POST"] : List String)
        = pySorted (((boundPairs c10ep.callbackCls (get_method_map c10vs c10r2.mapping)).map
            Prod.snd) ++ view_methods c10ep)
      ∧ (("x" :: ([("y", "POST")] : List (String × String)).map Prod.fst).all
            (fun f => f == "x") = false →
          some "docA" = ((["GET"], some "docA") : List String × Option String).2) :=
  c10_last_match_methods c10ep c10router "items" "item" c10vs [c10r1] c10r2
    (["GET"], some "docA") "x" "GET" [("y", "POST")] ["GET", "POST"] (some "docA")
    rfl rfl rfl rfl rfl rfl rfl rfl

/-! Claim C5: viewset methods for List and Instance handlers. -/

/-- Default http_method_names of django's View base class, inherited by
every DRF view. -/
def djangoHttpMethodNames : List String :=
  ["get", "post", "put", "patch", "delete", "head", "options", "trace"]

/-- C5: a ModelViewSet handler with the default http method names always
gets GET and POST in its allowed methods when the view suffix is List, and
GET, PUT, PATCH and DELETE when it is Instance, with no assumption on the
handler attributes. -/
theorem c5_viewset_methods (ep : UrlPattern) (r : Option Router)
    (ms : List String) (d : Option String)
    (hmvs : ep.callbackCls.isModelViewSet = true)
    (hhmn : ep.callbackCls.http_method_names = djangoHttpMethodNames)
    (hok : get_allowed_methods ep r = .ok (ms, d)) :
    (ep.suffix = some "List" → "GET" ∈ ms ∧ "POST" ∈ ms) ∧
    (ep.suffix = some "Instance" →
      "GET" ∈ ms ∧ "PUT" ∈ ms ∧ "PATCH" ∈ ms ∧ "DELETE" ∈ ms) := by
  obtain ⟨st, _, hms, _⟩ := get_allowed_methods_ok hok
  subst hms
  have hallow : ∀ mname, (viewsetMethodsGet ep.suffix).contains mname = true →
      is_method_allowed ep.suffix ep.callbackCls mname = true := by
    intro mname hc
    simp only [is_method_allowed, hmvs, hc]
    simp
  have hmem : ∀ (mname up : String), mname ∈ djangoHttpMethodNames → pyUpper mname = up →
      is_method_allowed ep.suffix ep.callbackCls mname = true →
      up ∈ pySorted (st.1 ++ view_methods ep) := by
    intro mname up hmn hup hal
    rw [mem_pySorted]
    refine List.mem_append_right _ ?_
    unfold view_methods
    rw [List.mem_filterMap]
    refine ⟨mname, by rw [hhmn]; exact hmn, ?_⟩
    rw [hal]
    simp [hup]
  constructor
  · intro hsuf
    have hvm : viewsetMethodsGet ep.suffix = ["get", "post"] := by rw [hsuf]; rfl
    exact ⟨hmem "get" "GET" (by decide) rfl (hallow "get" (by rw [hvm]; decide)),
      hmem "post" "POST" (by decide) rfl (hallow "post" (by rw [hvm]; decide))⟩
  · intro hsuf
    have hvm : viewsetMethodsGet ep.suffix = ["get", "put", "patch", "delete"] := by
      rw [hsuf]; rfl
    exact ⟨hmem "get" "GET" (by decide) rfl (hallow "get" (by rw [hvm]; decide)),
      hmem "put" "PUT" (by decide) rfl (hallow "put" (by rw [hvm]; decide)),
      hmem "patch" "PATCH" (by decide) rfl (hallow "patch" (by rw [hvm]; decide)),
      hmem "delete" "DELETE" (by decide) rfl (hallow "delete" (by rw [hvm]; decide))⟩

/-- A ModelViewSet List handler with no handler attributes at all. -/
def c5vs : ViewSetCls :=
  { id := 0, http_method_names := djangoHttpMethodNames, attrs := []
    actionFunc := fun _ => 0, funcDoc := fun _ => Option.none
    isModelViewSet := true, serializer_class := Option.none
    get_serializer_class_attr := Option.none, permission_classes := [] }

/-- Its List pattern, documented by nothing, with no router. -/
def c5ep : UrlPattern :=
  { regexPattern := "^x/$", callbackCls := c5vs, suffix := some "List"
    callbackDoc := Option.none }

theorem c5_witness :
    (c5ep.suffix = some "List" → "GET" ∈ (["GET", "POST"] : List String)
        ∧ "POST" ∈ (["GET", "POST"] : List String)) ∧
    (c5ep.suffix = some "Instance" → "GET" ∈ (["GET", "POST"] : List String)
        ∧ "PUT" ∈ (["GET", "POST"] : List String)
        ∧ "PATCH" ∈ (["GET", "POST"] : List String)
        ∧ "DELETE" ∈ (["GET", "POST"] : List String)) :=
  c5_viewset_methods c5ep Option.none ["GET", "POST"] Option.none rfl rfl rfl

/-! Claim C3: soft failure on serializer-instantiation KeyError. -/

theorem get_serializer_of_keyError (sc : SerializerClass) (m : String)
    (h : sc.instantiate = .error (.keyError m)) :
    get_serializer sc = .ok (Option.none, some (.keyError m)) := by
  unfold get_serializer; rw [h]

theorem get_serializer_of_typeError (sc : SerializerClass) (m : String)
    (h : sc.instantiate = .error (.typeError m)) :
    get_serializer sc = .error (.typeError m) := by
  unfold get_serializer; rw [h]

theorem get_serializer_of_valueError (sc : SerializerClass) (m : String)
    (h : sc.instantiate = .error (.valueError m)) :
    get_serializer sc = .error (.valueError m) := by
  unfold get_serializer; rw [h]

/-- C3: when the endpoint's serializer class resolves and the router walk
succeeds, a KeyError raised by no-argument instantiation is caught:
construction returns a complete descriptor with the error stored in the
errors slot, an empty (but assigned) field list, the empty JSON text, and
every other attribute produced; any exception other than a KeyError
propagates out of construction instead. -/
theorem c3_keyerror_soft (p : UrlPattern) (r : Option Router) (sc : SerializerClass)
    (ms : List String) (d : Option String)
    (hsc : get_serializer_class p.callbackCls = some sc)
    (hok : get_allowed_methods p r = .ok (ms, d)) :
    (∀ m, sc.instantiate = .error (.keyError m) →
      mkApiEndpoint p r = .ok
        { docstring := d, allowed_methods := ms, errors := some (.keyError m),
          serializer_class := some sc, serializer := some Option.none,
          fields := some [], fields_json := some "[]",
          read_only_fields := some Option.none, write_only_fields := some Option.none,
          permissions := get_permissions_class p.callbackCls }) ∧
    (∀ e, sc.instantiate = .error e → (∀ m, e ≠ .keyError m) →
      mkApiEndpoint p r = .error e) := by
  constructor
  · intro m hinst
    simp only [mkApiEndpoint, hok, Bind.bind, Except.bind, hsc]
    rw [get_serializer_of_keyError sc m hinst]
    rfl
  · intro e hinst hne
    simp only [mkApiEndpoint, hok, Bind.bind, Except.bind, hsc]
    cases e with
    | keyError m => exact absurd rfl (hne m)
    | typeError m => rw [get_serializer_of_typeError sc m hinst]
    | valueError m => rw [get_serializer_of_valueError sc m hinst]

/-- A serializer class whose no-argument call raises KeyError. -/
def c3sc : SerializerClass := ⟨.error (.keyError "context")⟩

/-- A serializer class whose no-argument call raises TypeError. -/
def c3esc : SerializerClass := ⟨.error (.typeError "boom")⟩

/-- Handler whose serializer_class attribute is the KeyError-raising
class. -/
def c3vsA : ViewSetCls :=
  { id := 0, http_method_names := [], attrs := []
    actionFunc := fun _ => 0, funcDoc := fun _ => Option.none
    isModelViewSet := false, serializer_class := some c3sc
    get_serializer_class_attr := Option.none, permission_classes := [] }

/-- Handler whose serializer_class attribute is the TypeError-raising
class. -/
def c3vsB : ViewSetCls :=
  { id := 0, http_method_names := [], attrs := []
    actionFunc := fun _ => 0, funcDoc := fun _ => Option.none
    isModelViewSet := false, serializer_class := some c3esc
    get_serializer_class_attr := Option.none, permission_classes := [] }

/-- Pattern routed to the KeyError handler. -/
def c3pA : UrlPattern :=
  { regexPattern := "^a/$", callbackCls := c3vsA, suffix := Option.none
    callbackDoc := some "doc" }

/-- Pattern routed to the TypeError handler. -/
def c3pB : UrlPattern :=
  { regexPattern := "^b/$", callbackCls := c3vsB, suffix := Option.none
    callbackDoc := some "doc" }

theorem c3_witness :
    mkApiEndpoint c3pA Option.none = .ok
      { docstring := some "doc", allowed_methods := [],
        errors := some (.keyError "context"), serializer_class := some c3sc,
        serializer := some Option.none, fields := some [], fields_json := some "[]",
        read_only_fields := some Option.none, write_only_fields := some Option.none,
        permissions := Option.none }
    ∧ mkApiEndpoint c3pB Option.none = .error (.typeError "boom") :=
  ⟨(c3_keyerror_soft c3pA Option.none c3sc [] (some "doc") rfl rfl).1 "context" rfl,
   (c3_keyerror_soft c3pB Option.none c3esc [] (some "doc") rfl rfl).2 (.typeError "boom")
     rfl (fun _ h => PyError.noConfusion h)⟩

/-! Claim C4: fields populated iff a serializer class resolved. -/

/-- A serializer class whose instantiation raises KeyError (so the
descriptor's field list is assigned but empty). -/
def c4sc : SerializerClass := ⟨.error (.keyError "missing kwarg")⟩

/-- Handler exposing c4sc as its serializer_class. -/
def c4vs : ViewSetCls :=
  { id := 0, http_method_names := [], attrs := []
    actionFunc := fun _ => 0, funcDoc := fun _ => Option.none
    isModelViewSet := false, serializer_class := some c4sc
    get_serializer_class_attr := Option.none, permission_classes := [] }

/-- Pattern routed to that handler. -/
def c4p : UrlPattern :=
  { regexPattern := "^c/$", callbackCls := c4vs, suffix := Option.none
    callbackDoc := some "doc" }

/-- Counterexample to C4 as stated: this endpoint's serializer class is
resolvable, so by the claim the fields attribute should be present and
non-empty, yet construction succeeds with fields assigned the empty list —
presence holds but non-emptiness does not. -/
theorem c4_populated_counterexample :
    (get_serializer_class c4p.callbackCls).isSome = true ∧
    ∃ ep, mkApiEndpoint c4p Option.none = .ok ep ∧ ep.fields = some [] :=
  ⟨rfl, ⟨_, rfl, rfl⟩⟩

/-- C4 as amended: on every successful construction the fields attribute is
assigned (present) iff a serializer class was resolvable for the endpoint's
handler; the assigned list may still be empty. -/
theorem c4_fields_iff_resolvable (p : UrlPattern) (r : Option Router) (ep : ApiEndpoint)
    (hok : mkApiEndpoint p r = .ok ep) :
    ep.fields.isSome = (get_serializer_class p.callbackCls).isSome := by
  simp only [mkApiEndpoint] at hok
  obtain ⟨st, h1, h2⟩ := except_bind_ok hok
  obtain ⟨al, dc⟩ := st
  cases hsc : get_serializer_class p.callbackCls with
  | none =>
    rw [hsc] at h2
    simp only [pure, Except.pure, Except.ok.injEq] at h2
    rw [← h2]
    rfl
  | some sc =>
    rw [hsc] at h2
    simp only [Bind.bind] at h2
    obtain ⟨se, h3, h4⟩ := except_bind_ok h2
    obtain ⟨fj, h5, h6⟩ := except_bind_ok h4
    simp only [pure, Except.pure, Except.ok.injEq] at h6
    rw [← h6]
    rfl

theorem c4_witness :
    (some ([] : List PyVal)).isSome = (get_serializer_class c4p.callbackCls).isSome :=
  c4_fields_iff_resolvable c4p Option.none
    { docstring := some "doc", allowed_methods := [],
      errors := some (.keyError "missing kwarg"), serializer_class := some c4sc,
      serializer := some Option.none, fields := some [], fields_json := some "[]",
      read_only_fields := some Option.none, write_only_fields := some Option.none,
      permissions := Option.none } rfl

/-! Shared facts about Python equality and dict construction. -/

theorem pyEq_refl_strong : ∀ N : Nat,
    (∀ v : PyVal, sizeOf v ≤ N → pyEq v v = true) ∧
    (∀ xs : List PyVal, sizeOf xs ≤ N → pyEqList xs xs = true) ∧
    (∀ es : List (PyVal × PyVal), sizeOf es ≤ N → pyEqEntries es es = true) := by
  intro N
  induction N using Nat.strong_induction_on with
  | _ N ih =>
    refine ⟨?_, ?_, ?_⟩
    · intro v hsz
      cases v with
      | str s => rw [pyEq.eq_def]; simp
      | promise s => rw [pyEq.eq_def]; simp
      | bool b => rw [pyEq.eq_def]; simp
      | int n => rw [pyEq.eq_def]; simp
      | none => rw [pyEq.eq_def]
      | list xs =>
        rw [pyEq.eq_def]; simp only []
        have hsz' : sizeOf xs < N := by simp only [PyVal.list.sizeOf_spec] at hsz; omega
        exact (ih (sizeOf xs) hsz').2.1 xs le_rfl
      | dict es =>
        rw [pyEq.eq_def]; simp only []
        have hsz' : sizeOf es < N := by simp only [PyVal.dict.sizeOf_spec] at hsz; omega
        exact (ih (sizeOf es) hsz').2.2 es le_rfl
    · intro xs hsz
      cases xs with
      | nil => rw [pyEqList.eq_def]
      | cons x rest =>
        rw [pyEqList.eq_def]; simp only []
        have h1 : sizeOf x < N := by simp only [List.cons.sizeOf_spec] at hsz; omega
        have h2 : sizeOf rest < N := by simp only [List.cons.sizeOf_spec] at hsz; omega
        rw [(ih (sizeOf x) h1).1 x le_rfl, (ih (sizeOf rest) h2).2.1 rest le_rfl]
        rfl
    · intro es hsz
      cases es with
      | nil => rw [pyEqEntries.eq_def]
      | cons e rest =>
        obtain ⟨k, v⟩ := e
        rw [pyEqEntries.eq_def]; simp only []
        have h1 : sizeOf k < N := by
          simp only [List.cons.sizeOf_spec, Prod.mk.sizeOf_spec] at hsz; omega
        have h2 : sizeOf v < N := by
          simp only [List.cons.sizeOf_spec, Prod.mk.sizeOf_spec] at hsz; omega
        have h3 : sizeOf rest < N := by
          simp only [List.cons.sizeOf_spec] at hsz; omega
        rw [(ih (sizeOf k) h1).1 k le_rfl, (ih (sizeOf v) h2).1 v le_rfl,
          (ih (sizeOf rest) h3).2.2 rest le_rfl]
        rfl

theorem pyEq_refl (v : PyVal) : pyEq v v = true :=
  (pyEq_refl_strong (sizeOf v)).1 v le_rfl

theorem pyEq_pyStr {a b : PyVal} (h : pyEq a b = true) : pyStr a = pyStr b := by
  cases a <;> cases b <;>
    first
      | rfl
      | (rw [pyEq.eq_def] at h
         simp only [] at h
         first
           | exact Bool.noConfusion h
           | (obtain rfl := eq_of_beq h; rfl))

/-- Dict lookup of an entry's own key when all keys are pairwise distinct
under Python equality. -/
theorem pyDictGet_of_mem {entries : List (PyVal × PyVal)} {e : PyVal × PyVal}
    (hp : entries.Pairwise (fun a b => pyEq a.1 b.1 = false)) (he : e ∈ entries) :
    pyDictGet entries e.1 = e.2 := by
  induction entries with
  | nil => cases he
  | cons a rest ih =>
    rw [List.pairwise_cons] at hp
    rcases List.mem_cons.mp he with rfl | hmem
    · unfold pyDictGet
      rw [show List.find? (fun x => pyEq x.1 e.1) (e :: rest) = some e from
        List.find?_cons_of_pos _ (pyEq_refl e.1)]
      rfl
    · unfold pyDictGet
      rw [show List.find? (fun x => pyEq x.1 e.1) (a :: rest)
          = List.find? (fun x => pyEq x.1 e.1) rest from
        List.find?_cons_of_neg _ (by simp [hp.1 e hmem])]
      exact ih hp.2 hmem

theorem foldl_pyDictInsert_disjoint :
    ∀ (l acc : List (PyVal × PyVal)),
      (∀ a ∈ acc, ∀ b ∈ l, pyEq a.1 b.1 = false) →
      l.Pairwise (fun a b => pyEq a.1 b.1 = false) →
      l.foldl pyDictInsert acc = acc ++ l := by
  intro l
  induction l with
  | nil => intro acc _ _; simp
  | cons kv rest ih =>
    intro acc hcross hp
    rw [List.pairwise_cons] at hp
    rw [List.foldl_cons]
    have hany : acc.any (fun e => pyEq e.1 kv.1) = false := by
      rw [List.any_eq_false]
      intro e he
      simp [hcross e he kv (List.mem_cons_self kv rest)]
    have hins : pyDictInsert acc kv = acc ++ [kv] := by
      unfold pyDictInsert
      simp [hany]
    rw [hins, ih (acc ++ [kv]) ?_ hp.2, List.append_assoc, List.singleton_append]
    intro a ha b hb
    rcases List.mem_append.mp ha with h | h
    · exact hcross a h b (List.mem_cons_of_mem _ hb)
    · rw [List.mem_singleton] at h
      rw [h]
      exact hp.1 b hb

/-- dict(pairs) returns the pair list unchanged when the keys are pairwise
distinct under Python equality. -/
theorem pyDictOfList_of_pairwise {pairs : List (PyVal × PyVal)}
    (h : pairs.Pairwise (fun a b => pyEq a.1 b.1 = false)) :
    pyDictOfList pairs = pairs := by
  unfold pyDictOfList
  rw [foldl_pyDictInsert_disjoint pairs [] (by intro a ha; cases ha) h]
  rfl

/-! Claim C7: write-only field extraction from extra_kwargs. -/

/-- Counterexample to C7 as stated: a field whose extra_kwargs override is
write_only mapped to False — an override that does not mark the field
write-only — is still collected, because the code tests membership of the
'write_only' key in the override, not the key's value. -/
theorem c7_key_presence_counterexample :
    get_serializer_write_only_fields (some (.mk true []
        (some { read_only_fields := Option.none,
                extra_kwargs := [("password", [("write_only", .bool false)])] })))
      = some ["password"]
    ∧ pyTruthy (.bool false) = false :=
  ⟨rfl, rfl⟩

/-- C7 as amended: for a serializer with a Meta block, the write-only list
is produced, and a name is in it iff its extra_kwargs override contains the
'write_only' key — whatever value, truthy or falsy, that key holds. -/
theorem c7_write_only_key_presence (hasGF : Bool) (flds : List (String × Field))
    (m : MetaBlock) (name : String) :
    ∃ l, get_serializer_write_only_fields (some (.mk hasGF flds (some m))) = some l ∧
      (name ∈ l ↔ ∃ kws, (name, kws) ∈ m.extra_kwargs ∧
        kws.any (fun p => p.1 == "write_only") = true) := by
  refine ⟨_, rfl, ?_⟩
  rw [List.mem_filterMap]
  constructor
  · rintro ⟨⟨k, kws⟩, he, hf⟩
    dsimp only at hf
    by_cases hc : kws.any (fun p => p.1 == "write_only") = true
    · rw [if_pos hc] at hf
      injection hf with h
      subst h
      exact ⟨kws, he, hc⟩
    · rw [if_neg hc] at hf
      cases hf
  · rintro ⟨kws, hm, hc⟩
    refine ⟨(name, kws), hm, ?_⟩
    dsimp only
    rw [if_pos hc]

/-! Claim C8: choices for related fields and for fields without choices. -/

/-- C8: a primary-key-related field always reports the one-element synthetic
list naming the referenced model, unchanged under any replacement of the
queryset's row contents; a field that is neither related nor declares
choices reports None. -/
theorem c8_related_and_absent_choices (cn qm : String) (qc qc' : List String)
    (many isBase : Bool) (selfS childS : Serializer) (req : Bool) (ht : PyVal)
    (ch : Option PyVal) :
    (get_field_choices (.mk cn true qm qc many isBase selfS childS req ht ch)
        = .list [.str ("Related field " ++ qm)]
      ∧ get_field_choices
          ((Field.mk cn true qm qc many isBase selfS childS req ht ch).withQuerysetContents qc')
        = get_field_choices (.mk cn true qm qc many isBase selfS childS req ht ch))
    ∧ get_field_choices (.mk cn false qm qc many isBase selfS childS req ht Option.none)
        = .none := by
  refine ⟨⟨?_, ?_⟩, ?_⟩ <;> simp [get_field_choices, Field.withQuerysetContents]

/-! Claim C6: re-keying of a choices dict with non-string keys. -/

/-- C6: for a non-related field declaring a choices dict whose keys form a
real dict (pairwise distinct under Python equality) with pairwise distinct
string representations: when at least one key is not a string, the reported
choices are the same entries with each key replaced by the string
representation of the original key and each value unchanged; when all keys
are already strings, the declared dict is returned as-is. -/
theorem c6_choice_rekeying (cn qm : String) (qc : List String)
    (many isBase : Bool) (selfS childS : Serializer) (req : Bool) (ht : PyVal)
    (entries : List (PyVal × PyVal))
    (hkeys : entries.Pairwise (fun a b => pyEq a.1 b.1 = false))
    (hstr : (entries.map (fun e => pyStr e.1)).Pairwise (fun a b => a ≠ b)) :
    (entries.all (fun e => isStr e.1) = false →
      get_field_choices (.mk cn false qm qc many isBase selfS childS req ht
          (some (.dict entries)))
        = .dict (entries.map (fun e => (.str (pyStr e.1), e.2)))) ∧
    (entries.all (fun e => isStr e.1) = true →
      get_field_choices (.mk cn false qm qc many isBase selfS childS req ht
          (some (.dict entries)))
        = .dict entries) := by
  constructor
  · intro hall
    simp only [get_field_choices, hall, Bool.not_false, if_true]
    have hmap : entries.map (fun e => ((.str (pyStr e.1) : PyVal), pyDictGet entries e.1))
        = entries.map (fun e => ((.str (pyStr e.1) : PyVal), e.2)) :=
      List.map_congr_left (fun e he => by rw [pyDictGet_of_mem hkeys he])
    rw [hmap, pyDictOfList_of_pairwise]
    · simp
    · rw [List.pairwise_map]
      have h2 := List.pairwise_map.mp hstr
      refine h2.imp ?_
      intro a b hne
      show pyEq (.str (pyStr a.1)) (.str (pyStr b.1)) = false
      rw [pyEq_str_str]
      exact beq_eq_false_iff_ne.mpr hne
  · intro hall
    simp only [get_field_choices, hall, Bool.not_true, if_false]
    simp

/-- A serializer object standing in for the unused nested-serializer slots
of concrete example fields. -/
def emptySer : Serializer := .mk false [] Option.none

/-- A choices dict with an int key and a str key (not all keys strings). -/
def c6entries : List (PyVal × PyVal) :=
  [(.int 1, .str "one"), (.str "b", .str "two")]

/-- A plain choice field declaring c6entries as its choices. -/
def c6fld : Field :=
  .mk "ChoiceField" false "Model" [] false false emptySer emptySer true .none
    (some (.dict c6entries))

theorem c6_witness :
    (c6entries.all (fun e => isStr e.1) = false →
      get_field_choices c6fld
        = .dict (c6entries.map (fun e => (.str (pyStr e.1), e.2)))) ∧
    (c6entries.all (fun e => isStr e.1) = true →
      get_field_choices c6fld = .dict c6entries) :=
  c6_choice_rekeying "ChoiceField" "Model" [] false false emptySer emptySer true .none
    c6entries (by decide) (by decide)

/-! Claim C9: JSON round-trip of the extracted field list. -/

theorem wfPy_str (s : String) : wfPy (.str s) = true := by
  rw [wfPy.eq_def]

theorem wfPy_promise (s : String) : wfPy (.promise s) = true := by
  rw [wfPy.eq_def]

theorem wfPy_bool (b : Bool) : wfPy (.bool b) = true := by
  rw [wfPy.eq_def]

theorem wfPy_none : wfPy .none = true := by
  rw [wfPy.eq_def]

theorem wfPyList_nil : wfPyList [] = true := by
  rw [wfPyList.eq_def]

theorem wfPyEntries_nil : wfPyEntries [] = true := by
  rw [wfPyEntries.eq_def]

/-- The or-with-empty-string fallback of a well-formed help text is
well-formed. -/
theorem wfPy_pyOr_str (ht : PyVal) (h : wfPy ht = true) (s : String) :
    wfPy (pyOr ht (.str s)) = true := by
  unfold pyOr
  by_cases hc : pyTruthy ht = true
  · rw [if_pos hc]; exact h
  · rw [if_neg hc]; exact wfPy_str s

mutual

/-- Well-formedness of a serializer for JSON extraction: every field is
well-formed. -/
def wfSerializer : Serializer → Bool
  | .mk _ fields _ => wfFieldList fields

/-- Well-formedness of a field list. -/
def wfFieldList : List (String × Field) → Bool
  | [] => true
  | (_, f) :: rest => wfField f && wfFieldList rest

/-- Well-formedness of a field: the help text and the computed choices are
encodable values, and a nested serializer (directly or as the child of a
many-relation) is itself well-formed. -/
def wfField : Field → Bool
  | .mk cn pk qm qc many isBase selfS childS req ht ch =>
    wfPy ht &&
    wfPy (get_field_choices (.mk cn pk qm qc many isBase selfS childS req ht ch)) &&
    (if many then (if isBase then wfSerializer childS else true)
     else (if isBase then wfSerializer selfS else true))

end

/-- The dict recorded for one field is well-formed whenever its sub_fields,
help text and choices values are. -/
theorem wfPy_fieldEntry_dict (k cn : String) (req many : Bool) (sub ht ch : PyVal)
    (hsub : wfPy sub = true) (hht : wfPy ht = true) (hch : wfPy ch = true) :
    wfPy (.dict [((.str "name" : PyVal), (.str k : PyVal)), (.str "type", .str cn),
      (.str "sub_fields", sub), (.str "required", .bool req),
      (.str "to_many_relation", .bool many),
      (.str "help_text", pyOr ht (.str "")),
      (.str "choices", ch)]) = true := by
  simp [wfPy_dict, wfPyEntries_cons, wfPyEntries_nil, isStr, wfPy_str, wfPy_bool,
    hsub, hch, wfPy_pyOr_str ht hht ""]

theorem wf_fields_strong : ∀ N : Nat,
    (∀ s : Serializer, sizeOf s ≤ N → wfSerializer s = true →
      wfPyList (serializerFields s) = true) ∧
    (∀ l : List (String × Field), sizeOf l ≤ N → wfFieldList l = true →
      wfPyList (fieldEntries l) = true) ∧
    (∀ (k : String) (f : Field), sizeOf f ≤ N → wfField f = true →
      wfPy (fieldEntry k f) = true) := by
  intro N
  induction N using Nat.strong_induction_on with
  | _ N ih =>
    refine ⟨?_, ?_, ?_⟩
    · intro s hsz hwf
      obtain ⟨hgf, fields, meta⟩ := s
      rw [wfSerializer.eq_def] at hwf
      rw [serializerFields.eq_def]
      simp only [] at hwf ⊢
      cases hgf with
      | false => rw [if_neg Bool.false_ne_true]; exact wfPyList_nil
      | true =>
        rw [if_pos rfl]
        have hsz' : sizeOf fields < N := by
          simp only [Serializer.mk.sizeOf_spec] at hsz; omega
        exact (ih (sizeOf fields) hsz').2.1 fields le_rfl hwf
    · intro l hsz hwf
      cases l with
      | nil => rw [fieldEntries.eq_def]; exact wfPyList_nil
      | cons e rest =>
        obtain ⟨k, f⟩ := e
        rw [fieldEntries.eq_def]
        simp only []
        rw [wfPyList_cons]
        rw [wfFieldList.eq_def] at hwf
        simp only [] at hwf
        rw [Bool.and_eq_true] at hwf
        have h1 : sizeOf f < N := by
          simp only [List.cons.sizeOf_spec, Prod.mk.sizeOf_spec] at hsz; omega
        have h2 : sizeOf rest < N := by
          simp only [List.cons.sizeOf_spec] at hsz; omega
        rw [(ih (sizeOf f) h1).2.2 k f le_rfl hwf.1,
          (ih (sizeOf rest) h2).2.1 rest le_rfl hwf.2]
        rfl
    · intro k f hsz hwf
      obtain ⟨cn, pk, qm, qc, many, isBase, selfS, childS, req, ht, ch⟩ := f
      rw [wfField.eq_def] at hwf
      simp only [] at hwf
      rw [Bool.and_eq_true, Bool.and_eq_true] at hwf
      obtain ⟨⟨hht, hch⟩, hsub⟩ := hwf
      rw [fieldEntry.eq_def]
      simp only []
      have hcs : sizeOf childS < N := by
        simp only [Field.mk.sizeOf_spec] at hsz; omega
      have hss : sizeOf selfS < N := by
        simp only [Field.mk.sizeOf_spec] at hsz; omega
      cases many with
      | true =>
        cases isBase with
        | true =>
          rw [if_pos rfl] at hsub ⊢
          rw [if_pos rfl] at hsub ⊢
          refine wfPy_fieldEntry_dict k cn req true _ ht _ ?_ hht hch
          rw [wfPy_list]
          exact (ih (sizeOf childS) hcs).1 childS le_rfl hsub
        | false =>
          rw [if_pos rfl] at hsub ⊢
          rw [if_neg Bool.false_ne_true] at hsub ⊢
          exact wfPy_fieldEntry_dict k cn req true _ ht _ wfPy_none hht hch
      | false =>
        cases isBase with
        | true =>
          rw [if_neg Bool.false_ne_true] at hsub ⊢
          rw [if_pos rfl] at hsub ⊢
          refine wfPy_fieldEntry_dict k cn req false _ ht _ ?_ hht hch
          rw [wfPy_list]
          exact (ih (sizeOf selfS) hss).1 selfS le_rfl hsub
        | false =>
          rw [if_neg Bool.false_ne_true] at hsub ⊢
          rw [if_neg Bool.false_ne_true] at hsub ⊢
          exact wfPy_fieldEntry_dict k cn req false _ ht _ wfPy_none hht hch

/-- C9: for a well-formed serializer, extracting the field list and
serializing it with the LazyEncoder always succeeds — also when help texts
are lazy translation placeholders — and parsing the produced JSON text back
yields a value Python-equal to the in-memory field list (so every name,
type, required flag and choices value is preserved; a lazy help text comes
back as its realised string, which compares equal). -/
theorem c9_fields_json_roundtrip (s : Serializer) (hwf : wfSerializer s = true) :
    ∃ txt, get_serializer_fields_json (serializerFields s) = .ok txt ∧
      ∃ j, parseJ txt = some j ∧
        pyEq (pyOfJson j) (.list (serializerFields s)) = true := by
  have hw : wfPy (.list (serializerFields s)) = true := by
    rw [wfPy_list]
    exact (wf_fields_strong (sizeOf s)).1 s le_rfl hwf
  obtain ⟨hd, hp, he⟩ := dumps_loads_roundtrip (.list (serializerFields s)) hw
  exact ⟨_, hd, _, hp, he⟩

/-- A serializer with one char field carrying a lazy translated help text
and one nested many-relation serializer field. -/
def c9ser : Serializer :=
  .mk true
    [("title", .mk "CharField" false "" [] false false emptySer emptySer true
        (.promise "Lazy help") Option.none),
     ("tags", .mk "TagSerializer" false "" [] true true emptySer
        (.mk true [("name", .mk "CharField" false "" [] false false emptySer emptySer
          false (.str "tag name") (some (.dict [(.str "a", .str "A")])))] Option.none)
        false .none Option.none)]
    Option.none

theorem c9_witness :
    ∃ txt, get_serializer_fields_json (serializerFields c9ser) = .ok txt ∧
      ∃ j, parseJ txt = some j ∧
        pyEq (pyOfJson j) (.list (serializerFields c9ser)) = true :=
  c9_fields_json_roundtrip c9ser (by decide)

end RestFrameworkDocs
